import Mathlib

/-!
Verification of the centralized stock exchange's matching core.

This file shallowly embeds the order-book matching engine of
`src/orderbook/src/orderbook.rs` together with the dispatch loop of
`src/matching_engine/src/main.rs`, and proves the specification's claims
about them.

Modelling conventions:
* The Rust `BTreeMap<i64, VecDeque<Order>>` is embedded as an association
  list `List (Int × List Order)` kept sorted by strictly increasing key;
  the sortedness that the B-tree maintains structurally is carried here as
  an invariant (`keysSorted`) that every reachable book satisfies.
* `u64` quantities become `Nat` (the only subtractions performed are of a
  value no larger than the minuend, proved below), `i64` prices become
  `Int`.
* `Option::unwrap()` on a price is modelled as `Option.getD 0` in the
  executable definitions; a separate checked variant returns `none`
  exactly where the Rust would panic, and is proved to succeed on
  well-formed inputs.
-/

namespace StockExchange

/-- Side enum of `orderbook.rs`: `Buy` or `Sell`. -/
inductive Side where
  | Buy
  | Sell
  deriving DecidableEq, Repr

/-- OrderType enum of `orderbook.rs`: `Limit` or `Market`. -/
inductive OrderType where
  | Limit
  | Market
  deriving DecidableEq, Repr

/-- OrderState enum of `orderbook.rs`. -/
inductive OrderState where
  | Filled
  | PartiallyFilled
  | Open
  | Close
  deriving DecidableEq, Repr

/-- TradeEvent struct of `orderbook.rs`. -/
structure TradeEvent where
  buyer : String
  seller : String
  symbol : String
  quantity : Nat
  price : Int
  deriving DecidableEq, Repr

/-- Order struct of `orderbook.rs`; `price = none` means market order. -/
structure Order where
  user : String
  side : Side
  price : Option Int
  quantity : Nat
  symbol : String
  state : OrderState
  deriving DecidableEq, Repr

/-- Rust `type PriceMap = BTreeMap<i64, VecDeque<Order>>`, embedded as an
association list sorted by strictly increasing price key. -/
abbrev PriceMap := List (Int × List Order)

namespace PriceMap

/-- The keys of the map in ascending order (B-tree iteration order). -/
def keysAsc (m : PriceMap) : List Int := m.map Prod.fst

/-- Sortedness invariant the Rust B-tree maintains structurally. -/
def keysSorted (m : PriceMap) : Prop := List.Pairwise (· < ·) (keysAsc m)

/-- Rust `book.get(&p)` / `book.get_mut(&p)`. -/
def lookup : PriceMap → Int → Option (List Order)
  | [], _ => none
  | (k, q) :: rest, p => if k = p then some q else lookup rest p

/-- Rust `book.remove(&p)`. -/
def eraseKey : PriceMap → Int → PriceMap
  | [], _ => []
  | (k, q) :: rest, p =>
    if k = p then eraseKey rest p else (k, q) :: eraseKey rest p

/-- Writing back the mutated queue of level `p` (the Rust code mutates the
queue in place through `get_mut`). -/
def setQueue : PriceMap → Int → List Order → PriceMap
  | [], _, _ => []
  | (k, q) :: rest, p, newq =>
    if k = p then (p, newq) :: setQueue rest p newq
    else (k, q) :: setQueue rest p newq

/-- Total resting quantity stored in the map. -/
def totalQty (m : PriceMap) : Nat :=
  (m.map (fun e => (e.2.map Order.quantity).sum)).sum

end PriceMap

/-- Total quantity of a queue of orders. -/
def qtySum (q : List Order) : Nat := (q.map Order.quantity).sum

/-- Total quantity of a list of trade events. -/
def eventsQty (evs : List TradeEvent) : Nat := (evs.map TradeEvent.quantity).sum

/-- Rust `fn trade_parties(maker, taker_id) -> (String, String)`:
a Buy maker is the buyer, a Sell maker is the seller. -/
def trade_parties (maker : Order) (takerId : String) : String × String :=
  match maker.side with
  | Side.Buy => (maker.user, takerId)
  | Side.Sell => (takerId, maker.user)

/-- Rust `fn make_event(maker, taker_id, qty) -> TradeEvent`. The
`maker.price.unwrap()` is modelled as `getD 0`; safety of the unwrap is
proved separately via the checked variant. -/
def make_event (maker : Order) (takerId : String) (qty : Nat) : TradeEvent :=
  let ps := trade_parties maker takerId
  { buyer := ps.1
    seller := ps.2
    price := maker.price.getD 0
    quantity := qty
    symbol := maker.symbol }

/-- Inner `while to_fill > 0 { ... pop_front ... }` loop of
`OrderBook::match_orders`, acting on one price level's queue. Pops makers
from the front; a partially consumed maker is pushed back to the front
(in which case the taker is exhausted, so the loop stops). Returns the
remaining `to_fill`, the emitted events, and the final queue. -/
def matchQueue (toFill : Nat) (queue : List Order) (takerId : String) :
    Nat × List TradeEvent × List Order :=
  match queue with
  | [] => (toFill, [], [])
  | front :: rest =>
    if toFill = 0 then (toFill, [], front :: rest)
    else
      let consumed := min toFill front.quantity
      let newQty := front.quantity - consumed
      let front' : Order :=
        { front with
          quantity := newQty
          state := if newQty = 0 then OrderState.Filled else OrderState.PartiallyFilled }
      let ev := make_event front' takerId consumed
      if 0 < newQty then
        (toFill - consumed, [ev], front' :: rest)
      else
        let r := matchQueue (toFill - consumed) rest takerId
        (r.1, ev :: r.2.1, r.2.2)

/-- Price gate of the matching walk, for limit takers only: continue while
`price.unwrap() >= current_price` (Buy vs asks, ascending) respectively
`price.unwrap() <= current_price` (Sell vs bids, descending). -/
def priceCross (ascending : Bool) (price : Option Int) (currentPrice : Int) : Bool :=
  if ascending then decide (currentPrice ≤ price.getD 0)
  else decide (price.getD 0 ≤ currentPrice)

/-- Outer `for current_price in keys` loop of `OrderBook::match_orders`,
with the key list collected up front exactly as in the Rust code. -/
def matchWalk (keys : List Int) (toFill : Nat) (price : Option Int) (book : PriceMap)
    (ascending : Bool) (ordertype : OrderType) (userId : String) :
    Nat × List TradeEvent × PriceMap :=
  match keys with
  | [] => (toFill, [], book)
  | currentPrice :: restKeys =>
    let gatePass : Bool :=
      match ordertype with
      | OrderType.Limit => priceCross ascending price currentPrice
      | OrderType.Market => true
    if gatePass then
      let queue := (PriceMap.lookup book currentPrice).getD []
      let r := matchQueue toFill queue userId
      let book' := if r.2.2.isEmpty then PriceMap.eraseKey book currentPrice
                   else PriceMap.setQueue book currentPrice r.2.2
      if r.1 = 0 then (r.1, r.2.1, book')
      else
        let w := matchWalk restKeys r.1 price book' ascending ordertype userId
        (w.1, r.2.1 ++ w.2.1, w.2.2)
    else (toFill, [], book)

/-- Rust `OrderBook::match_orders`: collect the keys in walk order, then
walk them. Returns `(to_fill, events)` plus the mutated book. -/
def match_orders (to_fill : Nat) (price : Option Int) (book : PriceMap)
    (ascending : Bool) (ordertype : OrderType) (user_id : String) :
    Nat × List TradeEvent × PriceMap :=
  let keys := if ascending then PriceMap.keysAsc book else (PriceMap.keysAsc book).reverse
  matchWalk keys to_fill price book ascending ordertype user_id

/-- Rust `OrderBook::insert_order`: `entry(price).or_insert_with(VecDeque::new).push_back(order)`,
i.e. append at the tail of the level's queue, creating the level (at its
sorted position) when absent. -/
def insert_order : PriceMap → Int → Order → PriceMap
  | [], p, o => [(p, [o])]
  | (k, q) :: rest, p, o =>
    if p < k then (p, [o]) :: (k, q) :: rest
    else if p = k then (k, q ++ [o]) :: rest
    else (k, q) :: insert_order rest p o

/-- OrderBook struct of `orderbook.rs`. -/
structure OrderBook where
  bid_map : PriceMap
  ask_map : PriceMap
  symbol : String
  deriving DecidableEq, Repr

namespace OrderBook

/-- Rust `OrderBook::new`. -/
def new (symbol : String) : OrderBook :=
  { bid_map := [], ask_map := [], symbol := symbol }

/-- Rust `OrderBook::add_limit_order`. `order.price.unwrap()` is modelled
as `getD 0` (safety via the checked variant). Returns the mutated book
and the emitted events. -/
def add_limit_order (bk : OrderBook) (order : Order) : OrderBook × List TradeEvent :=
  let price := order.price.getD 0
  match order.side with
  | Side.Buy =>
    let step :=
      match bk.ask_map.head? with
      | some kv =>
        if kv.1 ≤ price then
          match_orders order.quantity (some price) bk.ask_map true OrderType.Limit order.user
        else (order.quantity, [], bk.ask_map)
      | none => (order.quantity, [], bk.ask_map)
    if 0 < step.1 then
      ({ bk with
          ask_map := step.2.2
          bid_map := insert_order bk.bid_map price { order with quantity := step.1 } },
        step.2.1)
    else ({ bk with ask_map := step.2.2 }, step.2.1)
  | Side.Sell =>
    let step :=
      match bk.bid_map.getLast? with
      | some kv =>
        if price ≤ kv.1 then
          match_orders order.quantity (some price) bk.bid_map false OrderType.Limit order.user
        else (order.quantity, [], bk.bid_map)
      | none => (order.quantity, [], bk.bid_map)
    if 0 < step.1 then
      ({ bk with
          bid_map := step.2.2
          ask_map := insert_order bk.ask_map price { order with quantity := step.1 } },
        step.2.1)
    else ({ bk with bid_map := step.2.2 }, step.2.1)

/-- Rust `OrderBook::add_market_order`: walk the opposite map with no
price limit; the returned remainder is discarded. -/
def add_market_order (bk : OrderBook) (order : Order) : OrderBook × List TradeEvent :=
  match order.side with
  | Side.Buy =>
    let r := match_orders order.quantity none bk.ask_map true OrderType.Market order.user
    ({ bk with ask_map := r.2.2 }, r.2.1)
  | Side.Sell =>
    let r := match_orders order.quantity none bk.bid_map false OrderType.Market order.user
    ({ bk with bid_map := r.2.2 }, r.2.1)

end OrderBook

/-- A public operation on the book: the two entry points of `orderbook.rs`. -/
inductive Op where
  | limit (o : Order)
  | market (o : Order)
  deriving DecidableEq, Repr

/-- Apply one public operation, keeping only the book. -/
def applyOp (bk : OrderBook) : Op → OrderBook
  | Op.limit o => (bk.add_limit_order o).1
  | Op.market o => (bk.add_market_order o).1

/-- Run a sequence of public operations from a starting book. -/
def runOps (bk : OrderBook) : List Op → OrderBook
  | [] => bk
  | op :: rest => runOps (applyOp bk op) rest

/-- Well-formedness preconditions of the spec: a limit order carries a
price and positive quantity; a market order carries no price and positive
quantity. -/
def WFOp : Op → Prop
  | Op.limit o => o.price.isSome = true ∧ 0 < o.quantity
  | Op.market o => o.price = none ∧ 0 < o.quantity

instance : DecidablePred WFOp := fun op => by
  cases op <;> simp [WFOp] <;> infer_instance

/-- Highest resting bid price, when bids exist. -/
def bestBid (bk : OrderBook) : Option Int := (PriceMap.keysAsc bk.bid_map).getLast?

/-- Lowest resting ask price, when asks exist. -/
def bestAsk (bk : OrderBook) : Option Int := (PriceMap.keysAsc bk.ask_map).head?

/-- A pointwise property of every resting order, together with its level key. -/
def OrdersProp (m : PriceMap) (P : Int → Order → Prop) : Prop :=
  ∀ e ∈ m, ∀ o ∈ e.2, P e.1 o

/-- Every resting order's price field equals its level's key. -/
def PriceConsistent (m : PriceMap) : Prop :=
  OrdersProp m (fun p o => o.price = some p)

/-- The order rests in the book (either side) at level key p. -/
def inBook (bk : OrderBook) (p : Int) (o : Order) : Prop :=
  ∃ e, (e ∈ bk.bid_map ∨ e ∈ bk.ask_map) ∧ e.1 = p ∧ o ∈ e.2

/-- Well-formedness of a book state: both maps sorted by key, bids hold
Buy orders and asks Sell orders, each order's price equals its level key,
quantities are positive, and the book is not crossed. -/
structure WFBook (bk : OrderBook) : Prop where
  bidSorted : PriceMap.keysSorted bk.bid_map
  askSorted : PriceMap.keysSorted bk.ask_map
  bidOrders : OrdersProp bk.bid_map
    (fun p o => o.side = Side.Buy ∧ o.price = some p ∧ 0 < o.quantity)
  askOrders : OrdersProp bk.ask_map
    (fun p o => o.side = Side.Sell ∧ o.price = some p ∧ 0 < o.quantity)
  notCrossed : ∀ pb ∈ PriceMap.keysAsc bk.bid_map,
    ∀ pa ∈ PriceMap.keysAsc bk.ask_map, pb < pa

/-! ### Checked variants

The same algorithms with every Rust operation that can panic made
explicit: `Option::unwrap()` on a price and `BTreeMap` lookups feeding
`unwrap()` return `none`, and every `u64` subtraction is guarded against
underflow. They are proved equal to the plain definitions on well-formed
inputs, which is the formal content of "the unwraps never panic and the
subtractions never underflow". -/

/-- Guarded u64 subtraction: underflow is a panic, modelled as none. -/
def checkedSub (a b : Nat) : Option Nat := if b ≤ a then some (a - b) else none

/-- Checked variant of make_event: the `maker.price.unwrap()` panic is none. -/
def make_eventChecked (maker : Order) (takerId : String) (qty : Nat) :
    Option TradeEvent :=
  match maker.price with
  | none => none
  | some p =>
    let ps := trade_parties maker takerId
    some { buyer := ps.1, seller := ps.2, price := p, quantity := qty,
           symbol := maker.symbol }

/-- Checked variant of the inner queue loop. -/
def matchQueueChecked (toFill : Nat) (queue : List Order) (takerId : String) :
    Option (Nat × List TradeEvent × List Order) :=
  match queue with
  | [] => some (toFill, [], [])
  | front :: rest =>
    if toFill = 0 then some (toFill, [], front :: rest)
    else
      let consumed := min toFill front.quantity
      match checkedSub front.quantity consumed, checkedSub toFill consumed with
      | some newQty, some toFill' =>
        let front' : Order :=
          { front with
            quantity := newQty
            state := if newQty = 0 then OrderState.Filled else OrderState.PartiallyFilled }
        (match make_eventChecked front' takerId consumed with
          | none => none
          | some ev =>
            if 0 < newQty then some (toFill', [ev], front' :: rest)
            else
              match matchQueueChecked toFill' rest takerId with
              | none => none
              | some r => some (r.1, ev :: r.2.1, r.2.2))
      | _, _ => none

/-- Checked variant of the outer walk: the `price.unwrap()` in the limit
gate and the `book.get_mut(&current_price).unwrap()` are made explicit. -/
def matchWalkChecked (keys : List Int) (toFill : Nat) (price : Option Int)
    (book : PriceMap) (ascending : Bool) (ordertype : OrderType) (userId : String) :
    Option (Nat × List TradeEvent × PriceMap) :=
  match keys with
  | [] => some (toFill, [], book)
  | currentPrice :: restKeys =>
    let gatePass : Option Bool :=
      match ordertype with
      | OrderType.Limit =>
        match price with
        | none => none
        | some p =>
          some (if ascending then decide (currentPrice ≤ p) else decide (p ≤ currentPrice))
      | OrderType.Market => some true
    match gatePass with
    | none => none
    | some pass =>
      if pass then
        match PriceMap.lookup book currentPrice with
        | none => none
        | some queue =>
          match matchQueueChecked toFill queue userId with
          | none => none
          | some r =>
            let book' := if r.2.2.isEmpty then PriceMap.eraseKey book currentPrice
                         else PriceMap.setQueue book currentPrice r.2.2
            if r.1 = 0 then some (r.1, r.2.1, book')
            else
              match matchWalkChecked restKeys r.1 price book' ascending ordertype userId with
              | none => none
              | some w => some (w.1, r.2.1 ++ w.2.1, w.2.2)
      else some (toFill, [], book)

/-- Checked variant of match_orders. -/
def match_ordersChecked (to_fill : Nat) (price : Option Int) (book : PriceMap)
    (ascending : Bool) (ordertype : OrderType) (user_id : String) :
    Option (Nat × List TradeEvent × PriceMap) :=
  let keys := if ascending then PriceMap.keysAsc book else (PriceMap.keysAsc book).reverse
  matchWalkChecked keys to_fill price book ascending ordertype user_id

/-- Checked variant of add_limit_order: the taker's own `price.unwrap()`
is made explicit. -/
def add_limit_orderChecked (bk : OrderBook) (order : Order) :
    Option (OrderBook × List TradeEvent) :=
  match order.price with
  | none => none
  | some price =>
    match order.side with
    | Side.Buy =>
      let stepC :=
        match bk.ask_map.head? with
        | some kv =>
          if kv.1 ≤ price then
            match_ordersChecked order.quantity (some price) bk.ask_map true
              OrderType.Limit order.user
          else some (order.quantity, [], bk.ask_map)
        | none => some (order.quantity, [], bk.ask_map)
      match stepC with
      | none => none
      | some step =>
        if 0 < step.1 then
          some ({ bk with
                  ask_map := step.2.2
                  bid_map := insert_order bk.bid_map price { order with quantity := step.1 } },
                step.2.1)
        else some ({ bk with ask_map := step.2.2 }, step.2.1)
    | Side.Sell =>
      let stepC :=
        match bk.bid_map.getLast? with
        | some kv =>
          if price ≤ kv.1 then
            match_ordersChecked order.quantity (some price) bk.bid_map false
              OrderType.Limit order.user
          else some (order.quantity, [], bk.bid_map)
        | none => some (order.quantity, [], bk.bid_map)
      match stepC with
      | none => none
      | some step =>
        if 0 < step.1 then
          some ({ bk with
                  bid_map := step.2.2
                  ask_map := insert_order bk.ask_map price { order with quantity := step.1 } },
                step.2.1)
        else some ({ bk with bid_map := step.2.2 }, step.2.1)

/-- Checked variant of add_market_order. -/
def add_market_orderChecked (bk : OrderBook) (order : Order) :
    Option (OrderBook × List TradeEvent) :=
  match order.side with
  | Side.Buy =>
    match match_ordersChecked order.quantity none bk.ask_map true OrderType.Market order.user with
    | none => none
    | some r => some ({ bk with ask_map := r.2.2 }, r.2.1)
  | Side.Sell =>
    match match_ordersChecked order.quantity none bk.bid_map false OrderType.Market order.user with
    | none => none
    | some r => some ({ bk with bid_map := r.2.2 }, r.2.1)

/-! ### The engine dispatch loop of `src/matching_engine/src/main.rs` -/

/-- Lookup in the engine's symbol-to-book map (a `HashMap` in Rust,
embedded as an association list). -/
def lookupBook : List (String × OrderBook) → String → Option OrderBook
  | [], _ => none
  | (s, b) :: rest, sym => if s = sym then some b else lookupBook rest sym

/-- Writing the mutated book back (the Rust mutates through `get_mut`). -/
def updateBook : List (String × OrderBook) → String → OrderBook → List (String × OrderBook)
  | [], _, _ => []
  | (s, b) :: rest, sym, nb =>
    if s = sym then (s, nb) :: updateBook rest sym nb
    else (s, b) :: updateBook rest sym nb

/-- Rust `MatchingEngine::new(symbols)`: one empty book per symbol. -/
def newEngine (symbols : List String) : List (String × OrderBook) :=
  symbols.map (fun s => (s, OrderBook.new s))

/-- One iteration of the body of `MatchingEngine::run`. A payload of
`none` models a message that fails to decode into an Order (the `Err`
arm, which logs and continues). For a decoded order the Rust code runs
`self.engine_map.get_mut(&order.symbol).unwrap()`, which panics when the
symbol is not configured; the panic is modelled as `none`. -/
def engineStep (engineMap : List (String × OrderBook)) (payload : Option Order) :
    Option (List (String × OrderBook) × List TradeEvent) :=
  match payload with
  | none => some (engineMap, [])
  | some order =>
    match lookupBook engineMap order.symbol with
    | none => none
    | some book =>
      let r :=
        match order.price with
        | some _ => book.add_limit_order order
        | none => book.add_market_order order
      some (updateBook engineMap order.symbol r.1, r.2)

/-- The symbol list configured in `main` of the matching engine. -/
def configuredSymbols : List String :=
  ["AAPL", "MSFT", "TSLA", "GOOGL", "META", "INTC", "JPM", "AMZN"]

/-! ### Concrete orders used in scenarios, witnesses and counterexamples -/

/-- A limit order on symbol AAPL, as the Rust tests build them. -/
def limitOrder (u : String) (s : Side) (q : Nat) (p : Int) : Order :=
  { user := u, side := s, price := some p, quantity := q, symbol := "AAPL",
    state := OrderState.Open }

/-- A market order on symbol AAPL, as the Rust tests build them. -/
def marketOrder (u : String) (s : Side) (q : Nat) : Order :=
  { user := u, side := s, price := none, quantity := q, symbol := "AAPL",
    state := OrderState.Open }

/-- The fields of an order that the matching walk never mutates (it only
rewrites quantity and state). -/
def sameIdentity (o' o : Order) : Prop :=
  o'.user = o.user ∧ o'.side = o.side ∧ o'.price = o.price ∧ o'.symbol = o.symbol

/-- The to_fill value left after a limit taker's matching walk — the value
add_limit_order tests before resting the remainder. -/
def limitRemainder (bk : OrderBook) (order : Order) : Nat :=
  let price := order.price.getD 0
  match order.side with
  | Side.Buy =>
    match bk.ask_map.head? with
    | some kv =>
      if kv.1 ≤ price then
        (match_orders order.quantity (some price) bk.ask_map true
          OrderType.Limit order.user).1
      else order.quantity
    | none => order.quantity
  | Side.Sell =>
    match bk.bid_map.getLast? with
    | some kv =>
      if price ≤ kv.1 then
        (match_orders order.quantity (some price) bk.bid_map false
          OrderType.Limit order.user).1
      else order.quantity
    | none => order.quantity

/-- The unfilled remainder of a market order, which add_market_order
discards. -/
def marketRemainder (bk : OrderBook) (order : Order) : Nat :=
  match order.side with
  | Side.Buy =>
    (match_orders order.quantity none bk.ask_map true OrderType.Market order.user).1
  | Side.Sell =>
    (match_orders order.quantity none bk.bid_map false OrderType.Market order.user).1

/-! ## Lemmas about the inner queue loop -/

theorem matchQueue_fst_le (f : Nat) (q : List Order) (t : String) :
    (matchQueue f q t).1 ≤ f := by
  induction q generalizing f with
  | nil => simp [matchQueue]
  | cons front rest ih =>
    by_cases h0 : f = 0
    · simp [matchQueue, h0]
    · simp only [matchQueue, if_neg h0]
      by_cases hq : 0 < front.quantity - min f front.quantity
      · simp only [if_pos hq]
        omega
      · simp only [if_neg hq]
        have := ih (f - min f front.quantity)
        omega

theorem matchQueue_eventsQty (f : Nat) (q : List Order) (t : String) :
    eventsQty (matchQueue f q t).2.1 + (matchQueue f q t).1 = f := by
  induction q generalizing f with
  | nil => simp [matchQueue, eventsQty]
  | cons front rest ih =>
    by_cases h0 : f = 0
    · simp [matchQueue, h0, eventsQty]
    · simp only [matchQueue, if_neg h0]
      by_cases hq : 0 < front.quantity - min f front.quantity
      · simp only [if_pos hq]
        simp [eventsQty, make_event]
      · simp only [if_neg hq]
        have := ih (f - min f front.quantity)
        simp only [eventsQty, List.map_cons, List.sum_cons] at this ⊢
        simp [make_event]
        omega

theorem matchQueue_qtySum (f : Nat) (q : List Order) (t : String) :
    qtySum (matchQueue f q t).2.2 + eventsQty (matchQueue f q t).2.1 = qtySum q := by
  induction q generalizing f with
  | nil => simp [matchQueue, eventsQty, qtySum]
  | cons front rest ih =>
    by_cases h0 : f = 0
    · simp [matchQueue, h0, eventsQty]
    · simp only [matchQueue, if_neg h0]
      by_cases hq : 0 < front.quantity - min f front.quantity
      · simp only [if_pos hq]
        simp [eventsQty, qtySum, make_event]
        omega
      · simp only [if_neg hq]
        have := ih (f - min f front.quantity)
        simp only [eventsQty, qtySum, List.map_cons, List.sum_cons] at this ⊢
        simp [make_event]
        omega

theorem matchQueue_queue_nil_of_pos {f : Nat} {q : List Order} {t : String}
    (h : 0 < (matchQueue f q t).1) : (matchQueue f q t).2.2 = [] := by
  induction q generalizing f with
  | nil => simp [matchQueue]
  | cons front rest ih =>
    by_cases h0 : f = 0
    · simp [matchQueue, h0] at h
    · simp only [matchQueue, if_neg h0] at h ⊢
      by_cases hq : 0 < front.quantity - min f front.quantity
      · simp only [if_pos hq] at h ⊢
        omega
      · simp only [if_neg hq] at h ⊢
        exact ih h

theorem matchQueue_mem_origin {f : Nat} {q : List Order} {t : String} :
    ∀ o' ∈ (matchQueue f q t).2.2, ∃ o ∈ q, sameIdentity o' o := by
  induction q generalizing f with
  | nil => simp [matchQueue]
  | cons front rest ih =>
    by_cases h0 : f = 0
    · simp only [matchQueue, if_pos h0]
      intro o' ho'
      exact ⟨o', ho', rfl, rfl, rfl, rfl⟩
    · simp only [matchQueue, if_neg h0]
      by_cases hq : 0 < front.quantity - min f front.quantity
      · simp only [if_pos hq]
        intro o' ho'
        simp only [List.mem_cons] at ho'
        rcases ho' with ho' | ho'
        · exact ⟨front, List.mem_cons_self _ _, by simp [ho', sameIdentity]⟩
        · exact ⟨o', List.mem_cons_of_mem _ ho', rfl, rfl, rfl, rfl⟩
      · simp only [if_neg hq]
        intro o' ho'
        obtain ⟨o, ho, hs⟩ := ih o' ho'
        exact ⟨o, List.mem_cons_of_mem _ ho, hs⟩

theorem matchQueue_pos {f : Nat} {q : List Order} {t : String}
    (hq : ∀ o ∈ q, 0 < o.quantity) :
    ∀ o' ∈ (matchQueue f q t).2.2, 0 < o'.quantity := by
  induction q generalizing f with
  | nil => simp [matchQueue]
  | cons front rest ih =>
    by_cases h0 : f = 0
    · simp only [matchQueue, if_pos h0]
      exact hq
    · simp only [matchQueue, if_neg h0]
      by_cases hnq : 0 < front.quantity - min f front.quantity
      · simp only [if_pos hnq]
        intro o' ho'
        simp only [List.mem_cons] at ho'
        rcases ho' with ho' | ho'
        · simp [ho']
          omega
        · exact hq o' (List.mem_cons_of_mem _ ho')
      · simp only [if_neg hnq]
        exact ih (fun o ho => hq o (List.mem_cons_of_mem _ ho))

theorem matchQueue_events_origin {f : Nat} {q : List Order} {t : String} :
    ∀ ev ∈ (matchQueue f q t).2.1, ∃ o ∈ q,
      ev.price = o.price.getD 0 ∧ (ev.buyer, ev.seller) = trade_parties o t ∧
      ev.symbol = o.symbol := by
  induction q generalizing f with
  | nil => simp [matchQueue]
  | cons front rest ih =>
    by_cases h0 : f = 0
    · simp [matchQueue, h0]
    · simp only [matchQueue, if_neg h0]
      by_cases hq : 0 < front.quantity - min f front.quantity
      · simp only [if_pos hq]
        intro ev hev
        simp only [List.mem_singleton] at hev
        refine ⟨front, List.mem_cons_self _ _, ?_⟩
        subst hev
        cases hfs : front.side <;>
          simp [make_event, trade_parties, hfs]
      · simp only [if_neg hq]
        intro ev hev
        simp only [List.mem_cons] at hev
        rcases hev with hev | hev
        · refine ⟨front, List.mem_cons_self _ _, ?_⟩
          subst hev
          cases hfs : front.side <;>
            simp [make_event, trade_parties, hfs]
        · obtain ⟨o, ho, hs⟩ := ih ev hev
          exact ⟨o, List.mem_cons_of_mem _ ho, hs⟩


/-! ## Lemmas about the price map primitives -/

namespace PriceMap

theorem totalQty_nil : totalQty [] = 0 := rfl

theorem totalQty_cons (e : Int × List Order) (m : PriceMap) :
    totalQty (e :: m) = qtySum e.2 + totalQty m := by
  simp [totalQty, qtySum]

theorem lookup_mem {m : PriceMap} {p : Int} {q : List Order}
    (h : lookup m p = some q) : (p, q) ∈ m := by
  induction m with
  | nil => simp [lookup] at h
  | cons e rest ih =>
    obtain ⟨k, q0⟩ := e
    by_cases hk : k = p
    · simp only [lookup, if_pos hk] at h
      cases h
      subst hk
      exact List.mem_cons_self _ _
    · simp only [lookup, if_neg hk] at h
      exact List.mem_cons_of_mem _ (ih h)

theorem lookup_eq_none {m : PriceMap} {p : Int} :
    lookup m p = none ↔ p ∉ keysAsc m := by
  induction m with
  | nil => simp [lookup, keysAsc]
  | cons e rest ih =>
    obtain ⟨k, q0⟩ := e
    by_cases hk : k = p
    · simp only [lookup, if_pos hk, keysAsc, List.map_cons, List.mem_cons]
      subst hk
      simp
    · simp only [lookup, if_neg hk, keysAsc, List.map_cons, List.mem_cons]
      rw [ih]
      simp [keysAsc, Ne.symm hk]

theorem lookup_isSome_of_mem {m : PriceMap} {p : Int}
    (h : p ∈ keysAsc m) : ∃ q, lookup m p = some q := by
  cases hl : lookup m p with
  | none => exact absurd (lookup_eq_none.mp hl) (not_not_intro h)
  | some q => exact ⟨q, rfl⟩

theorem eraseKey_sublist (m : PriceMap) (p : Int) :
    List.Sublist (eraseKey m p) m := by
  induction m with
  | nil => simp [eraseKey]
  | cons e rest ih =>
    obtain ⟨k, q0⟩ := e
    by_cases hk : k = p
    · rw [eraseKey, if_pos hk]
      exact ih.cons (k, q0)
    · rw [eraseKey, if_neg hk]
      exact ih.cons₂ (k, q0)

theorem keysAsc_eraseKey_sublist (m : PriceMap) (p : Int) :
    List.Sublist (keysAsc (eraseKey m p)) (keysAsc m) :=
  (eraseKey_sublist m p).map _

theorem not_mem_keysAsc_eraseKey (m : PriceMap) (p : Int) :
    p ∉ keysAsc (eraseKey m p) := by
  induction m with
  | nil => simp [eraseKey, keysAsc]
  | cons e rest ih =>
    obtain ⟨k, q0⟩ := e
    by_cases hk : k = p
    · rw [eraseKey, if_pos hk]
      exact ih
    · rw [eraseKey, if_neg hk]
      simp only [keysAsc, List.map_cons, List.mem_cons, not_or]
      exact ⟨fun hc => hk hc.symm, ih⟩

theorem mem_keysAsc_eraseKey {m : PriceMap} {p k : Int}
    (h : k ∈ keysAsc m) (hne : k ≠ p) : k ∈ keysAsc (eraseKey m p) := by
  induction m with
  | nil => simp [keysAsc] at h
  | cons e rest ih =>
    obtain ⟨k0, q0⟩ := e
    simp only [keysAsc, List.map_cons, List.mem_cons] at h
    by_cases hk : k0 = p
    · rw [eraseKey, if_pos hk]
      rcases h with h | h
      · exact absurd (h.trans hk) hne
      · exact ih h
    · rw [eraseKey, if_neg hk]
      simp only [keysAsc, List.map_cons, List.mem_cons]
      rcases h with h | h
      · exact Or.inl h
      · exact Or.inr (ih h)

theorem mem_eraseKey {m : PriceMap} {p : Int} {e : Int × List Order}
    (h : e ∈ eraseKey m p) : e ∈ m :=
  (eraseKey_sublist m p).mem h

theorem eraseKey_eq_self {m : PriceMap} {p : Int}
    (h : p ∉ keysAsc m) : eraseKey m p = m := by
  induction m with
  | nil => rfl
  | cons e rest ih =>
    obtain ⟨k, q0⟩ := e
    simp only [keysAsc, List.map_cons, List.mem_cons, not_or] at h
    rw [eraseKey, if_neg (fun hc => h.1 hc.symm), ih h.2]

theorem keysAsc_setQueue (m : PriceMap) (p : Int) (q : List Order) :
    keysAsc (setQueue m p q) = keysAsc m := by
  induction m with
  | nil => rfl
  | cons e rest ih =>
    obtain ⟨k, q0⟩ := e
    by_cases hk : k = p
    · rw [setQueue, if_pos hk]
      simp only [keysAsc, List.map_cons] at ih ⊢
      rw [ih, hk]
    · rw [setQueue, if_neg hk]
      simp only [keysAsc, List.map_cons] at ih ⊢
      rw [ih]

theorem mem_setQueue {m : PriceMap} {p : Int} {q : List Order}
    {e : Int × List Order} (h : e ∈ setQueue m p q) :
    (e = (p, q)) ∨ e ∈ m := by
  induction m with
  | nil => simp [setQueue] at h
  | cons e0 rest ih =>
    obtain ⟨k, q0⟩ := e0
    by_cases hk : k = p
    · rw [setQueue, if_pos hk] at h
      simp only [List.mem_cons] at h
      rcases h with h | h
      · exact Or.inl h
      · rcases ih h with h | h
        · exact Or.inl h
        · exact Or.inr (List.mem_cons_of_mem _ h)
    · rw [setQueue, if_neg hk] at h
      simp only [List.mem_cons] at h
      rcases h with h | h
      · exact Or.inr (h ▸ List.mem_cons_self _ _)
      · rcases ih h with h | h
        · exact Or.inl h
        · exact Or.inr (List.mem_cons_of_mem _ h)

theorem setQueue_eq_self {m : PriceMap} {p : Int} {q : List Order}
    (h : p ∉ keysAsc m) : setQueue m p q = m := by
  induction m with
  | nil => rfl
  | cons e rest ih =>
    obtain ⟨k, q0⟩ := e
    simp only [keysAsc, List.map_cons, List.mem_cons, not_or] at h
    rw [setQueue, if_neg (fun hc => h.1 hc.symm), ih h.2]

theorem totalQty_eraseKey {m : PriceMap} {p : Int} {q : List Order}
    (h : lookup m p = some q) (hnd : (keysAsc m).Nodup) :
    totalQty (eraseKey m p) + qtySum q = totalQty m := by
  induction m with
  | nil => simp [lookup] at h
  | cons e rest ih =>
    obtain ⟨k, q0⟩ := e
    simp only [keysAsc, List.map_cons, List.nodup_cons] at hnd
    by_cases hk : k = p
    · simp only [lookup, if_pos hk] at h
      cases h
      rw [eraseKey, if_pos hk, eraseKey_eq_self (hk ▸ hnd.1), totalQty_cons]
      dsimp only
      omega
    · simp only [lookup, if_neg hk] at h
      rw [eraseKey, if_neg hk, totalQty_cons, totalQty_cons]
      have := ih h hnd.2
      omega

theorem totalQty_setQueue {m : PriceMap} {p : Int} {q q' : List Order}
    (h : lookup m p = some q) (hnd : (keysAsc m).Nodup) :
    totalQty (setQueue m p q') + qtySum q = totalQty m + qtySum q' := by
  induction m with
  | nil => simp [lookup] at h
  | cons e rest ih =>
    obtain ⟨k, q0⟩ := e
    simp only [keysAsc, List.map_cons, List.nodup_cons] at hnd
    by_cases hk : k = p
    · simp only [lookup, if_pos hk] at h
      cases h
      rw [setQueue, if_pos hk, setQueue_eq_self (hk ▸ hnd.1), totalQty_cons,
        totalQty_cons]
      dsimp only
      omega
    · simp only [lookup, if_neg hk] at h
      rw [setQueue, if_neg hk, totalQty_cons, totalQty_cons]
      have := ih h hnd.2
      omega

theorem totalQty_insert_order (m : PriceMap) (p : Int) (o : Order) :
    totalQty (insert_order m p o) = totalQty m + o.quantity := by
  induction m with
  | nil => simp [insert_order, totalQty, qtySum]
  | cons e rest ih =>
    obtain ⟨k, q0⟩ := e
    by_cases h1 : p < k
    · rw [insert_order, if_pos h1, totalQty_cons, totalQty_cons]
      dsimp only
      simp [qtySum]
      omega
    · by_cases h2 : p = k
      · rw [insert_order, if_neg h1, if_pos h2, totalQty_cons, totalQty_cons]
        simp [qtySum]
        omega
      · rw [insert_order, if_neg h1, if_neg h2, totalQty_cons, totalQty_cons]
        omega

theorem keysAsc_insert_order {m : PriceMap} {p : Int} {o : Order} {k : Int}
    (h : k ∈ keysAsc (insert_order m p o)) : k = p ∨ k ∈ keysAsc m := by
  induction m with
  | nil => simpa [insert_order, keysAsc] using h
  | cons e rest ih =>
    obtain ⟨k0, q0⟩ := e
    by_cases h1 : p < k0
    · rw [insert_order, if_pos h1] at h
      simp only [keysAsc, List.map_cons, List.mem_cons] at h ⊢
      tauto
    · by_cases h2 : p = k0
      · rw [insert_order, if_neg h1, if_pos h2] at h
        simp only [keysAsc, List.map_cons, List.mem_cons] at h ⊢
        rcases h with h | h
        · exact Or.inl (h.trans h2.symm)
        · exact Or.inr (Or.inr h)
      · rw [insert_order, if_neg h1, if_neg h2] at h
        simp only [keysAsc, List.map_cons, List.mem_cons] at h ⊢
        rcases h with h | h
        · exact Or.inr (Or.inl h)
        · rcases ih h with h | h
          · exact Or.inl h
          · exact Or.inr (Or.inr h)

theorem keysSorted_insert_order {m : PriceMap} (hs : keysSorted m)
    (p : Int) (o : Order) : keysSorted (insert_order m p o) := by
  induction m with
  | nil => simp [insert_order, keysSorted, keysAsc]
  | cons e rest ih =>
    obtain ⟨k0, q0⟩ := e
    simp only [keysSorted, keysAsc, List.map_cons, List.pairwise_cons] at hs
    by_cases h1 : p < k0
    · rw [keysSorted, insert_order, if_pos h1]
      simp only [keysAsc, List.map_cons, List.pairwise_cons]
      refine ⟨?_, ?_, hs.2⟩
      · intro b hb
        simp only [List.mem_cons] at hb
        rcases hb with hb | hb
        · omega
        · have := hs.1 b hb
          omega
      · exact hs.1
    · by_cases h2 : p = k0
      · rw [keysSorted, insert_order, if_neg h1, if_pos h2]
        simp only [keysAsc, List.map_cons, List.pairwise_cons]
        exact hs
      · rw [keysSorted, insert_order, if_neg h1, if_neg h2]
        simp only [keysAsc, List.map_cons, List.pairwise_cons]
        refine ⟨?_, ih hs.2⟩
        intro b hb
        rcases keysAsc_insert_order hb with hb | hb
        · omega
        · exact hs.1 b hb

theorem lookup_insert_order_self {m : PriceMap} (hs : keysSorted m)
    (p : Int) (o : Order) :
    lookup (insert_order m p o) p = some ((lookup m p).getD [] ++ [o]) := by
  induction m with
  | nil => simp [insert_order, lookup]
  | cons e rest ih =>
    obtain ⟨k0, q0⟩ := e
    simp only [keysSorted, keysAsc, List.map_cons, List.pairwise_cons] at hs
    by_cases h1 : p < k0
    · have hnone : lookup ((k0, q0) :: rest) p = none := by
        apply lookup_eq_none.mpr
        simp only [keysAsc, List.map_cons, List.mem_cons, not_or]
        constructor
        · omega
        · intro hmem
          have := hs.1 p hmem
          omega
      rw [insert_order, if_pos h1, hnone]
      simp [lookup]
    · by_cases h2 : p = k0
      · rw [insert_order, if_neg h1, if_pos h2]
        simp only [lookup, if_pos h2.symm]
        simp
      · rw [insert_order, if_neg h1, if_neg h2]
        simp only [lookup, if_neg (fun hc : k0 = p => h2 hc.symm)]
        exact ih hs.2

theorem ordersProp_insert_order {m : PriceMap} {P : Int → Order → Prop}
    (hm : OrdersProp m P) {p : Int} {o : Order} (ho : P p o) :
    OrdersProp (insert_order m p o) P := by
  induction m with
  | nil =>
    intro e he x hx
    simp only [insert_order, List.mem_singleton] at he
    subst he
    simp only [List.mem_singleton] at hx
    subst hx
    exact ho
  | cons e0 rest ih =>
    obtain ⟨k0, q0⟩ := e0
    have hrest : OrdersProp rest P := fun e he x hx =>
      hm e (List.mem_cons_of_mem _ he) x hx
    have hhead : ∀ x ∈ q0, P k0 x := fun x hx =>
      hm (k0, q0) (List.mem_cons_self _ _) x hx
    by_cases h1 : p < k0
    · intro e he x hx
      rw [insert_order, if_pos h1] at he
      simp only [List.mem_cons] at he
      rcases he with he | he
      · subst he
        simp only [List.mem_singleton] at hx
        subst hx
        exact ho
      · exact hm e (List.mem_cons.mpr he) x hx
    · by_cases h2 : p = k0
      · intro e he x hx
        rw [insert_order, if_neg h1, if_pos h2] at he
        simp only [List.mem_cons] at he
        rcases he with he | he
        · subst he
          simp only [List.mem_append, List.mem_singleton] at hx
          rcases hx with hx | hx
          · exact hhead x hx
          · subst hx
            exact h2 ▸ ho
        · exact hrest e he x hx
      · intro e he x hx
        rw [insert_order, if_neg h1, if_neg h2] at he
        simp only [List.mem_cons] at he
        rcases he with he | he
        · subst he
          exact hhead x hx
        · exact ih hrest e he x hx

end PriceMap


/-! ## Lemmas about the outer walk -/

theorem eventsQty_nil : eventsQty [] = 0 := rfl

theorem eventsQty_append (a b : List TradeEvent) :
    eventsQty (a ++ b) = eventsQty a + eventsQty b := by
  simp [eventsQty]

theorem trade_parties_congr {o' o : Order} (h : sameIdentity o' o) (t : String) :
    trade_parties o' t = trade_parties o t := by
  obtain ⟨hu, hs, -, -⟩ := h
  unfold trade_parties
  rw [hs, hu]

theorem sameIdentity_refl (o : Order) : sameIdentity o o :=
  ⟨rfl, rfl, rfl, rfl⟩

theorem sameIdentity_trans {a b c : Order}
    (h1 : sameIdentity a b) (h2 : sameIdentity b c) : sameIdentity a c :=
  ⟨h1.1.trans h2.1, h1.2.1.trans h2.2.1, h1.2.2.1.trans h2.2.2.1,
   h1.2.2.2.trans h2.2.2.2⟩

theorem matchWalk_eventsQty (ks : List Int) (f : Nat) (p : Option Int)
    (b : PriceMap) (a : Bool) (ot : OrderType) (u : String) :
    eventsQty (matchWalk ks f p b a ot u).2.1 + (matchWalk ks f p b a ot u).1 = f := by
  induction ks generalizing f b with
  | nil => simp [matchWalk, eventsQty]
  | cons c rest ih =>
    simp only [matchWalk]
    split
    · split
      · simpa using matchQueue_eventsQty f ((PriceMap.lookup b c).getD []) u
      · have h1 := matchQueue_eventsQty f ((PriceMap.lookup b c).getD []) u
        have h2 := ih (matchQueue f ((PriceMap.lookup b c).getD []) u).1
          (if (matchQueue f ((PriceMap.lookup b c).getD []) u).2.2.isEmpty
            then PriceMap.eraseKey b c
            else PriceMap.setQueue b c (matchQueue f ((PriceMap.lookup b c).getD []) u).2.2)
        rw [eventsQty_append]
        omega
    · simp [eventsQty]

theorem matchWalk_fst_le (ks : List Int) (f : Nat) (p : Option Int)
    (b : PriceMap) (a : Bool) (ot : OrderType) (u : String) :
    (matchWalk ks f p b a ot u).1 ≤ f := by
  have := matchWalk_eventsQty ks f p b a ot u
  omega

theorem matchWalk_keys_sublist (ks : List Int) (f : Nat) (p : Option Int)
    (b : PriceMap) (a : Bool) (ot : OrderType) (u : String) :
    List.Sublist (PriceMap.keysAsc (matchWalk ks f p b a ot u).2.2)
      (PriceMap.keysAsc b) := by
  induction ks generalizing f b with
  | nil => simp [matchWalk]
  | cons c rest ih =>
    simp only [matchWalk]
    split
    · have hbook : List.Sublist
          (PriceMap.keysAsc
            (if (matchQueue f ((PriceMap.lookup b c).getD []) u).2.2.isEmpty
              then PriceMap.eraseKey b c
              else PriceMap.setQueue b c
                (matchQueue f ((PriceMap.lookup b c).getD []) u).2.2))
          (PriceMap.keysAsc b) := by
        split
        · exact PriceMap.keysAsc_eraseKey_sublist b c
        · rw [PriceMap.keysAsc_setQueue]
      split
      · exact hbook
      · exact (ih _ _).trans hbook
    · exact List.Sublist.refl _

theorem matchWalk_totalQty (ks : List Int) (f : Nat) (p : Option Int)
    (b : PriceMap) (a : Bool) (ot : OrderType) (u : String)
    (hnd : (PriceMap.keysAsc b).Nodup) :
    PriceMap.totalQty (matchWalk ks f p b a ot u).2.2 +
      eventsQty (matchWalk ks f p b a ot u).2.1 = PriceMap.totalQty b := by
  induction ks generalizing f b with
  | nil => simp [matchWalk, eventsQty]
  | cons c rest ih =>
    simp only [matchWalk]
    split
    · cases hl : PriceMap.lookup b c with
      | none =>
        simp only [Option.getD_none]
        have hb : PriceMap.eraseKey b c = b :=
          PriceMap.eraseKey_eq_self (PriceMap.lookup_eq_none.mp hl)
        rw [show matchQueue f ([] : List Order) u = (f, [], []) from rfl]
        simp only [List.isEmpty_nil, if_true, hb]
        split
        · simp [eventsQty]
        · have h2 := ih f b hnd
          rw [eventsQty_append]
          simp only [eventsQty_nil]
          omega
      | some q0 =>
        simp only [Option.getD_some]
        have hsum := matchQueue_qtySum f q0 u
        have hbook : PriceMap.totalQty
            (if (matchQueue f q0 u).2.2.isEmpty
              then PriceMap.eraseKey b c
              else PriceMap.setQueue b c (matchQueue f q0 u).2.2) +
            eventsQty (matchQueue f q0 u).2.1 = PriceMap.totalQty b := by
          split
          · next hemp =>
            rw [List.isEmpty_iff] at hemp
            have := PriceMap.totalQty_eraseKey hl hnd
            rw [hemp, show qtySum ([] : List Order) = 0 from rfl] at hsum
            omega
          · have := @PriceMap.totalQty_setQueue b c q0 (matchQueue f q0 u).2.2 hl hnd
            omega
        have hndbook : (PriceMap.keysAsc
            (if (matchQueue f q0 u).2.2.isEmpty
              then PriceMap.eraseKey b c
              else PriceMap.setQueue b c (matchQueue f q0 u).2.2)).Nodup := by
          split
          · exact (PriceMap.keysAsc_eraseKey_sublist b c).nodup hnd
          · rw [PriceMap.keysAsc_setQueue]; exact hnd
        split
        · exact hbook
        · dsimp only
          have h2 := ih (matchQueue f q0 u).1
            (if (matchQueue f q0 u).2.2.isEmpty then PriceMap.eraseKey b c
              else PriceMap.setQueue b c (matchQueue f q0 u).2.2) hndbook
          rw [eventsQty_append]
          omega
    · simp [eventsQty]

theorem matchWalk_ordersProp {P : Int → Order → Prop}
    (ks : List Int) (f : Nat) (p : Option Int) (b : PriceMap) (a : Bool)
    (ot : OrderType) (u : String)
    (hstep : ∀ (f0 : Nat) (k : Int) (queue : List Order),
      (∀ o ∈ queue, P k o) → ∀ o' ∈ (matchQueue f0 queue u).2.2, P k o')
    (hm : OrdersProp b P) :
    OrdersProp (matchWalk ks f p b a ot u).2.2 P := by
  induction ks generalizing f b with
  | nil => simpa [matchWalk] using hm
  | cons c rest ih =>
    simp only [matchWalk]
    split
    · have hbook : OrdersProp
          (if (matchQueue f ((PriceMap.lookup b c).getD []) u).2.2.isEmpty
            then PriceMap.eraseKey b c
            else PriceMap.setQueue b c
              (matchQueue f ((PriceMap.lookup b c).getD []) u).2.2) P := by
        split
        · intro e he o ho
          exact hm e (PriceMap.mem_eraseKey he) o ho
        · next hemp =>
          intro e he o ho
          rcases PriceMap.mem_setQueue he with he' | he'
          · subst he'
            cases hl : PriceMap.lookup b c with
            | none =>
              exfalso
              have hq : (PriceMap.lookup b c).getD [] = [] := by rw [hl]; rfl
              rw [hq] at ho
              simp [matchQueue] at ho
            | some q0 =>
              have hq : (PriceMap.lookup b c).getD [] = q0 := by rw [hl]; rfl
              rw [hq] at ho
              have hqs : ∀ x ∈ q0, P c x := hm (c, q0) (PriceMap.lookup_mem hl)
              exact hstep f c q0 hqs o ho
          · exact hm e he' o ho
      split
      · exact hbook
      · exact ih _ _ hbook
    · exact hm

theorem matchWalk_events_origin (ks : List Int) (f : Nat) (p : Option Int)
    (b : PriceMap) (a : Bool) (ot : OrderType) (u : String) :
    ∀ ev ∈ (matchWalk ks f p b a ot u).2.1, ∃ e ∈ b, ∃ o ∈ e.2,
      ev.price = o.price.getD 0 ∧ (ev.buyer, ev.seller) = trade_parties o u ∧
      ev.symbol = o.symbol := by
  induction ks generalizing f b with
  | nil => simp [matchWalk]
  | cons c rest ih =>
    simp only [matchWalk]
    split
    · have hqueue : ∀ ev ∈ (matchQueue f ((PriceMap.lookup b c).getD []) u).2.1,
          ∃ e ∈ b, ∃ o ∈ e.2, ev.price = o.price.getD 0 ∧
            (ev.buyer, ev.seller) = trade_parties o u ∧ ev.symbol = o.symbol := by
        intro ev hev
        cases hl : PriceMap.lookup b c with
        | none =>
          exfalso
          have hq : (PriceMap.lookup b c).getD [] = [] := by rw [hl]; rfl
          rw [hq] at hev
          simp [matchQueue] at hev
        | some q0 =>
          have hq : (PriceMap.lookup b c).getD [] = q0 := by rw [hl]; rfl
          rw [hq] at hev
          obtain ⟨o, ho, hprops⟩ := matchQueue_events_origin ev hev
          exact ⟨(c, q0), PriceMap.lookup_mem hl, o, ho, hprops⟩
      have hbook : ∀ e' ∈
          (if (matchQueue f ((PriceMap.lookup b c).getD []) u).2.2.isEmpty
            then PriceMap.eraseKey b c
            else PriceMap.setQueue b c
              (matchQueue f ((PriceMap.lookup b c).getD []) u).2.2),
          ∃ e ∈ b, e'.1 = e.1 ∧ ∀ o' ∈ e'.2, ∃ o ∈ e.2, sameIdentity o' o := by
        intro e' he'
        split at he'
        · exact ⟨e', PriceMap.mem_eraseKey he', rfl,
            fun o' ho' => ⟨o', ho', sameIdentity_refl o'⟩⟩
        · next hemp =>
          rcases PriceMap.mem_setQueue he' with he'' | he''
          · subst he''
            cases hl : PriceMap.lookup b c with
            | none =>
              exfalso
              apply hemp
              have hq : (PriceMap.lookup b c).getD [] = [] := by rw [hl]; rfl
              rw [hq]
              rfl
            | some q0 =>
              refine ⟨(c, q0), PriceMap.lookup_mem hl, rfl, ?_⟩
              intro o' ho'
              simp only [Option.getD_some] at ho'
              exact matchQueue_mem_origin o' ho'
          · exact ⟨e', he'', rfl, fun o' ho' => ⟨o', ho', sameIdentity_refl o'⟩⟩
      split
      · exact hqueue
      · intro ev hev
        rw [List.mem_append] at hev
        rcases hev with hev | hev
        · exact hqueue ev hev
        · obtain ⟨e', he', o', ho', hprops⟩ := ih _ _ ev hev
          obtain ⟨e, he, hkey, horig⟩ := hbook e' he'
          obtain ⟨o, ho, hid⟩ := horig o' ho'
          refine ⟨e, he, o, ho, ?_, ?_, ?_⟩
          · rw [hprops.1, hid.2.2.1]
          · rw [hprops.2.1, trade_parties_congr hid]
          · rw [hprops.2.2, hid.2.2.2]
    · simp

theorem matchWalk_drain_asc {ks : List Int} {f : Nat} {p : Int} {b : PriceMap}
    {u : String} (hks : List.Pairwise (· < ·) ks)
    (hpos : 0 < (matchWalk ks f (some p) b true OrderType.Limit u).1) :
    ∀ k ∈ ks, k ≤ p →
      k ∉ PriceMap.keysAsc (matchWalk ks f (some p) b true OrderType.Limit u).2.2 := by
  induction ks generalizing f b with
  | nil => simp
  | cons c rest ih =>
    rw [List.pairwise_cons] at hks
    simp only [matchWalk] at hpos ⊢
    split at hpos
    · next hg =>
      rw [if_pos hg]
      split at hpos
      · next h0 =>
        dsimp only at hpos
        omega
      · next h0 =>
        rw [if_neg h0]
        have h22 : (matchQueue f ((PriceMap.lookup b c).getD []) u).2.2 = [] :=
          matchQueue_queue_nil_of_pos (Nat.pos_of_ne_zero h0)
        rw [h22] at hpos ⊢
        simp only [List.isEmpty_nil, if_true] at hpos ⊢
        intro k hk hkp
        simp only [List.mem_cons] at hk
        rcases hk with hk | hk
        · subst hk
          intro hmem
          exact PriceMap.not_mem_keysAsc_eraseKey b k
            ((matchWalk_keys_sublist rest _ (some p) (PriceMap.eraseKey b k) true
              OrderType.Limit u).subset hmem)
        · exact ih hks.2 hpos k hk hkp
    · next hg =>
      rw [if_neg hg]
      dsimp only at hpos
      simp only [priceCross, if_true, Option.getD_some, decide_eq_true_eq] at hg
      intro k hk hkp
      simp only [List.mem_cons] at hk
      exfalso
      rcases hk with hk | hk
      · omega
      · have := hks.1 k hk
        omega

theorem matchWalk_drain_desc {ks : List Int} {f : Nat} {p : Int} {b : PriceMap}
    {u : String} (hks : List.Pairwise (fun x y => y < x) ks)
    (hpos : 0 < (matchWalk ks f (some p) b false OrderType.Limit u).1) :
    ∀ k ∈ ks, p ≤ k →
      k ∉ PriceMap.keysAsc (matchWalk ks f (some p) b false OrderType.Limit u).2.2 := by
  induction ks generalizing f b with
  | nil => simp
  | cons c rest ih =>
    rw [List.pairwise_cons] at hks
    simp only [matchWalk] at hpos ⊢
    split at hpos
    · next hg =>
      rw [if_pos hg]
      split at hpos
      · next h0 =>
        dsimp only at hpos
        omega
      · next h0 =>
        rw [if_neg h0]
        have h22 : (matchQueue f ((PriceMap.lookup b c).getD []) u).2.2 = [] :=
          matchQueue_queue_nil_of_pos (Nat.pos_of_ne_zero h0)
        rw [h22] at hpos ⊢
        simp only [List.isEmpty_nil, if_true] at hpos ⊢
        intro k hk hkp
        simp only [List.mem_cons] at hk
        rcases hk with hk | hk
        · subst hk
          intro hmem
          exact PriceMap.not_mem_keysAsc_eraseKey b k
            ((matchWalk_keys_sublist rest _ (some p) (PriceMap.eraseKey b k) false
              OrderType.Limit u).subset hmem)
        · exact ih hks.2 hpos k hk hkp
    · next hg =>
      rw [if_neg hg]
      dsimp only at hpos
      simp only [priceCross, if_false, Option.getD_some, decide_eq_true_eq,
        Bool.false_eq_true] at hg
      intro k hk hkp
      simp only [List.mem_cons] at hk
      exfalso
      rcases hk with hk | hk
      · omega
      · have := hks.1 k hk
        omega

/-! ## Lemmas at the match_orders level -/

theorem match_orders_eventsQty (f : Nat) (p : Option Int) (b : PriceMap)
    (asc : Bool) (ot : OrderType) (u : String) :
    eventsQty (match_orders f p b asc ot u).2.1 + (match_orders f p b asc ot u).1 = f :=
  matchWalk_eventsQty (if asc then PriceMap.keysAsc b else (PriceMap.keysAsc b).reverse)
    f p b asc ot u

theorem match_orders_fst_le (f : Nat) (p : Option Int) (b : PriceMap)
    (asc : Bool) (ot : OrderType) (u : String) :
    (match_orders f p b asc ot u).1 ≤ f :=
  matchWalk_fst_le (if asc then PriceMap.keysAsc b else (PriceMap.keysAsc b).reverse)
    f p b asc ot u

theorem match_orders_keys_sublist (f : Nat) (p : Option Int) (b : PriceMap)
    (asc : Bool) (ot : OrderType) (u : String) :
    List.Sublist (PriceMap.keysAsc (match_orders f p b asc ot u).2.2)
      (PriceMap.keysAsc b) :=
  matchWalk_keys_sublist (if asc then PriceMap.keysAsc b else (PriceMap.keysAsc b).reverse)
    f p b asc ot u

theorem match_orders_sorted {b : PriceMap} (hs : PriceMap.keysSorted b)
    (f : Nat) (p : Option Int) (asc : Bool) (ot : OrderType) (u : String) :
    PriceMap.keysSorted (match_orders f p b asc ot u).2.2 :=
  List.Pairwise.sublist (match_orders_keys_sublist f p b asc ot u) hs

theorem match_orders_totalQty {b : PriceMap} (hs : PriceMap.keysSorted b)
    (f : Nat) (p : Option Int) (asc : Bool) (ot : OrderType) (u : String) :
    PriceMap.totalQty (match_orders f p b asc ot u).2.2 +
      eventsQty (match_orders f p b asc ot u).2.1 = PriceMap.totalQty b :=
  matchWalk_totalQty (if asc then PriceMap.keysAsc b else (PriceMap.keysAsc b).reverse)
    f p b asc ot u hs.nodup

theorem match_orders_ordersProp {P : Int → Order → Prop} {b : PriceMap}
    (f : Nat) (p : Option Int) (asc : Bool) (ot : OrderType) (u : String)
    (hstep : ∀ (f0 : Nat) (k : Int) (queue : List Order),
      (∀ o ∈ queue, P k o) → ∀ o' ∈ (matchQueue f0 queue u).2.2, P k o')
    (hm : OrdersProp b P) :
    OrdersProp (match_orders f p b asc ot u).2.2 P :=
  matchWalk_ordersProp (if asc then PriceMap.keysAsc b else (PriceMap.keysAsc b).reverse)
    f p b asc ot u hstep hm

theorem match_orders_events_origin (f : Nat) (p : Option Int) (b : PriceMap)
    (asc : Bool) (ot : OrderType) (u : String) :
    ∀ ev ∈ (match_orders f p b asc ot u).2.1, ∃ e ∈ b, ∃ o ∈ e.2,
      ev.price = o.price.getD 0 ∧ (ev.buyer, ev.seller) = trade_parties o u ∧
      ev.symbol = o.symbol :=
  matchWalk_events_origin (if asc then PriceMap.keysAsc b else (PriceMap.keysAsc b).reverse)
    f p b asc ot u

/-- The invariant carried by each side's resting orders survives one
queue-loop step. -/
theorem matchQueue_step_wf (u : String) (s : Side) :
    ∀ (f0 : Nat) (k : Int) (queue : List Order),
      (∀ o ∈ queue, o.side = s ∧ o.price = some k ∧ 0 < o.quantity) →
      ∀ o' ∈ (matchQueue f0 queue u).2.2,
        o'.side = s ∧ o'.price = some k ∧ 0 < o'.quantity := by
  intro f0 k queue hq o' ho'
  obtain ⟨o, ho, hid⟩ := matchQueue_mem_origin o' ho'
  have hpos := matchQueue_pos (fun x hx => (hq x hx).2.2) o' ho'
  exact ⟨hid.2.1.trans (hq o ho).1, hid.2.2.1.trans (hq o ho).2.1, hpos⟩

theorem match_orders_drain_asc {b : PriceMap} (hs : PriceMap.keysSorted b)
    {f : Nat} {p : Int} {u : String}
    (hpos : 0 < (match_orders f (some p) b true OrderType.Limit u).1) :
    ∀ k ∈ PriceMap.keysAsc (match_orders f (some p) b true OrderType.Limit u).2.2,
      p < k := by
  intro k hk
  have hin : k ∈ PriceMap.keysAsc b :=
    (match_orders_keys_sublist f (some p) b true OrderType.Limit u).subset hk
  by_contra hcon
  push_neg at hcon
  exact matchWalk_drain_asc hs hpos k hin hcon hk

theorem match_orders_drain_desc {b : PriceMap} (hs : PriceMap.keysSorted b)
    {f : Nat} {p : Int} {u : String}
    (hpos : 0 < (match_orders f (some p) b false OrderType.Limit u).1) :
    ∀ k ∈ PriceMap.keysAsc (match_orders f (some p) b false OrderType.Limit u).2.2,
      k < p := by
  intro k hk
  have hin : k ∈ (PriceMap.keysAsc b).reverse :=
    List.mem_reverse.mpr
      ((match_orders_keys_sublist f (some p) b false OrderType.Limit u).subset hk)
  by_contra hcon
  push_neg at hcon
  have hrev : List.Pairwise (fun x y => y < x) (PriceMap.keysAsc b).reverse :=
    List.pairwise_reverse.mpr hs
  exact matchWalk_drain_desc hrev hpos k hin hcon hk

theorem keysSorted_head_le {m : PriceMap} (hs : PriceMap.keysSorted m)
    {kv : Int × List Order} (h : m.head? = some kv) :
    ∀ k ∈ PriceMap.keysAsc m, kv.1 ≤ k := by
  cases m with
  | nil => simp at h
  | cons e rest =>
    simp only [List.head?_cons, Option.some.injEq] at h
    subst h
    simp only [PriceMap.keysSorted, PriceMap.keysAsc, List.map_cons,
      List.pairwise_cons] at hs
    intro k hk
    simp only [PriceMap.keysAsc, List.map_cons, List.mem_cons] at hk
    rcases hk with hk | hk
    · omega
    · have := hs.1 k hk
      omega

theorem keysSorted_le_getLast {m : PriceMap} (hs : PriceMap.keysSorted m)
    {kv : Int × List Order} (h : m.getLast? = some kv) :
    ∀ k ∈ PriceMap.keysAsc m, k ≤ kv.1 := by
  induction m with
  | nil => simp at h
  | cons e rest ih =>
    cases rest with
    | nil =>
      simp only [List.getLast?_singleton, Option.some.injEq] at h
      subst h
      simp [PriceMap.keysAsc]
    | cons e2 rest2 =>
      have h2 : (e2 :: rest2).getLast? = some kv := by
        rw [← h, List.getLast?_cons_cons]
      simp only [PriceMap.keysSorted, PriceMap.keysAsc, List.map_cons,
        List.pairwise_cons] at hs
      have hkv : kv ∈ e2 :: rest2 := List.mem_of_getLast?_eq_some h2
      have htail := ih (by
        simp only [PriceMap.keysSorted, PriceMap.keysAsc, List.map_cons,
          List.pairwise_cons]
        exact hs.2) h2
      intro k hk
      simp only [PriceMap.keysAsc, List.map_cons, List.mem_cons] at hk
      rcases hk with hk | hk
      · have : kv.1 ∈ PriceMap.keysAsc (e2 :: rest2) :=
          List.mem_map_of_mem Prod.fst hkv
        simp only [PriceMap.keysAsc, List.map_cons] at this
        have := hs.1 kv.1 this
        omega
      · exact htail k (by simpa [PriceMap.keysAsc] using hk)

/-! ## Preservation of well-formedness by the public operations -/

theorem WF_new (s : String) : WFBook (OrderBook.new s) := by
  constructor <;>
    simp [OrderBook.new, PriceMap.keysSorted, PriceMap.keysAsc, OrdersProp]

theorem WF_add_market_order {bk : OrderBook} (hwf : WFBook bk) (order : Order) :
    WFBook (bk.add_market_order order).1 := by
  cases hside : order.side
  case Buy =>
    simp only [OrderBook.add_market_order, hside]
    constructor
    · exact hwf.bidSorted
    · exact match_orders_sorted hwf.askSorted _ _ _ _ _
    · exact hwf.bidOrders
    · exact match_orders_ordersProp _ _ _ _ _
        (matchQueue_step_wf order.user Side.Sell) hwf.askOrders
    · intro pb hpb pa hpa
      exact hwf.notCrossed pb hpb pa
        ((match_orders_keys_sublist _ _ _ _ _ _).subset hpa)
  case Sell =>
    simp only [OrderBook.add_market_order, hside]
    constructor
    · exact match_orders_sorted hwf.bidSorted _ _ _ _ _
    · exact hwf.askSorted
    · exact match_orders_ordersProp _ _ _ _ _
        (matchQueue_step_wf order.user Side.Buy) hwf.bidOrders
    · exact hwf.askOrders
    · intro pb hpb pa hpa
      exact hwf.notCrossed pb
        ((match_orders_keys_sublist _ _ _ _ _ _).subset hpb) pa hpa

theorem WF_add_limit_order {bk : OrderBook} (hwf : WFBook bk) {order : Order}
    (hp : order.price.isSome = true) : WFBook (bk.add_limit_order order).1 := by
  obtain ⟨pr, hpr⟩ := Option.isSome_iff_exists.mp hp
  have hgd : order.price.getD 0 = pr := by rw [hpr]; rfl
  cases hside : order.side
  case Buy =>
    simp only [OrderBook.add_limit_order, hside, hgd]
    cases hh : bk.ask_map.head? with
    | none =>
      have hask : bk.ask_map = [] := List.head?_eq_none_iff.mp hh
      dsimp only
      split
      · next hrem =>
        constructor
        · exact PriceMap.keysSorted_insert_order hwf.bidSorted pr _
        · exact hwf.askSorted
        · exact PriceMap.ordersProp_insert_order hwf.bidOrders
            ⟨rfl, hpr, hrem⟩
        · exact hwf.askOrders
        · intro pb hpb pa hpa
          rw [hask] at hpa
          simp [PriceMap.keysAsc] at hpa
      · exact ⟨hwf.bidSorted, hwf.askSorted, hwf.bidOrders, hwf.askOrders,
          hwf.notCrossed⟩
    | some kv =>
      dsimp only
      by_cases hcross : kv.1 ≤ pr
      · rw [if_pos hcross]
        split
        · next hrem =>
          constructor
          · exact PriceMap.keysSorted_insert_order hwf.bidSorted pr _
          · exact match_orders_sorted hwf.askSorted _ _ _ _ _
          · exact PriceMap.ordersProp_insert_order hwf.bidOrders
              ⟨rfl, hpr, hrem⟩
          · exact match_orders_ordersProp _ _ _ _ _
              (matchQueue_step_wf order.user Side.Sell) hwf.askOrders
          · intro pb hpb pa hpa
            rcases PriceMap.keysAsc_insert_order hpb with hpb' | hpb'
            · subst hpb'
              exact match_orders_drain_asc hwf.askSorted hrem pa hpa
            · exact hwf.notCrossed pb hpb' pa
                ((match_orders_keys_sublist _ _ _ _ _ _).subset hpa)
        · constructor
          · exact hwf.bidSorted
          · exact match_orders_sorted hwf.askSorted _ _ _ _ _
          · exact hwf.bidOrders
          · exact match_orders_ordersProp _ _ _ _ _
              (matchQueue_step_wf order.user Side.Sell) hwf.askOrders
          · intro pb hpb pa hpa
            exact hwf.notCrossed pb hpb pa
              ((match_orders_keys_sublist _ _ _ _ _ _).subset hpa)
      · rw [if_neg hcross]
        split
        · next hrem =>
          constructor
          · exact PriceMap.keysSorted_insert_order hwf.bidSorted pr _
          · exact hwf.askSorted
          · exact PriceMap.ordersProp_insert_order hwf.bidOrders
              ⟨rfl, hpr, hrem⟩
          · exact hwf.askOrders
          · intro pb hpb pa hpa
            rcases PriceMap.keysAsc_insert_order hpb with hpb' | hpb'
            · subst hpb'
              have h1 := keysSorted_head_le hwf.askSorted hh pa hpa
              omega
            · exact hwf.notCrossed pb hpb' pa hpa
        · exact ⟨hwf.bidSorted, hwf.askSorted, hwf.bidOrders, hwf.askOrders,
            hwf.notCrossed⟩
  case Sell =>
    simp only [OrderBook.add_limit_order, hside, hgd]
    cases hh : bk.bid_map.getLast? with
    | none =>
      have hbid : bk.bid_map = [] := List.getLast?_eq_none_iff.mp hh
      dsimp only
      split
      · next hrem =>
        constructor
        · exact hwf.bidSorted
        · exact PriceMap.keysSorted_insert_order hwf.askSorted pr _
        · exact hwf.bidOrders
        · exact PriceMap.ordersProp_insert_order hwf.askOrders
            ⟨rfl, hpr, hrem⟩
        · intro pb hpb pa hpa
          rw [hbid] at hpb
          simp [PriceMap.keysAsc] at hpb
      · exact ⟨hwf.bidSorted, hwf.askSorted, hwf.bidOrders, hwf.askOrders,
          hwf.notCrossed⟩
    | some kv =>
      dsimp only
      by_cases hcross : pr ≤ kv.1
      · rw [if_pos hcross]
        split
        · next hrem =>
          constructor
          · exact match_orders_sorted hwf.bidSorted _ _ _ _ _
          · exact PriceMap.keysSorted_insert_order hwf.askSorted pr _
          · exact match_orders_ordersProp _ _ _ _ _
              (matchQueue_step_wf order.user Side.Buy) hwf.bidOrders
          · exact PriceMap.ordersProp_insert_order hwf.askOrders
              ⟨rfl, hpr, hrem⟩
          · intro pb hpb pa hpa
            rcases PriceMap.keysAsc_insert_order hpa with hpa' | hpa'
            · subst hpa'
              exact match_orders_drain_desc hwf.bidSorted hrem pb hpb
            · exact hwf.notCrossed pb
                ((match_orders_keys_sublist _ _ _ _ _ _).subset hpb) pa hpa'
        · constructor
          · exact match_orders_sorted hwf.bidSorted _ _ _ _ _
          · exact hwf.askSorted
          · exact match_orders_ordersProp _ _ _ _ _
              (matchQueue_step_wf order.user Side.Buy) hwf.bidOrders
          · exact hwf.askOrders
          · intro pb hpb pa hpa
            exact hwf.notCrossed pb
              ((match_orders_keys_sublist _ _ _ _ _ _).subset hpb) pa hpa
      · rw [if_neg hcross]
        split
        · next hrem =>
          constructor
          · exact hwf.bidSorted
          · exact PriceMap.keysSorted_insert_order hwf.askSorted pr _
          · exact hwf.bidOrders
          · exact PriceMap.ordersProp_insert_order hwf.askOrders
              ⟨rfl, hpr, hrem⟩
          · intro pb hpb pa hpa
            rcases PriceMap.keysAsc_insert_order hpa with hpa' | hpa'
            · subst hpa'
              have h1 := keysSorted_le_getLast hwf.bidSorted hh pb hpb
              omega
            · exact hwf.notCrossed pb hpb pa hpa'
        · exact ⟨hwf.bidSorted, hwf.askSorted, hwf.bidOrders, hwf.askOrders,
            hwf.notCrossed⟩

theorem WF_applyOp {bk : OrderBook} (hwf : WFBook bk) {op : Op}
    (hop : WFOp op) : WFBook (applyOp bk op) := by
  cases op with
  | limit o => exact WF_add_limit_order hwf hop.1
  | market o => exact WF_add_market_order hwf o

theorem WF_runOps {bk : OrderBook} (hwf : WFBook bk) {ops : List Op}
    (hops : ∀ op ∈ ops, WFOp op) : WFBook (runOps bk ops) := by
  induction ops generalizing bk with
  | nil => exact hwf
  | cons op rest ih =>
    simp only [runOps]
    exact ih (WF_applyOp hwf (hops op (List.mem_cons_self _ _)))
      (fun x hx => hops x (List.mem_cons_of_mem _ hx))

/-! ## Events of the public operations trace back to resting makers -/

theorem add_limit_order_events_origin (bk : OrderBook) (order : Order) :
    ∀ ev ∈ (bk.add_limit_order order).2, ∃ e,
      ((order.side = Side.Buy ∧ e ∈ bk.ask_map) ∨
       (order.side = Side.Sell ∧ e ∈ bk.bid_map)) ∧
      ∃ o ∈ e.2, ev.price = o.price.getD 0 ∧
        (ev.buyer, ev.seller) = trade_parties o order.user ∧
        ev.symbol = o.symbol := by
  cases hside : order.side
  case Buy =>
    simp only [OrderBook.add_limit_order, hside]
    cases hh : bk.ask_map.head? with
    | none =>
      dsimp only
      split <;> simp
    | some kv =>
      dsimp only
      by_cases hcross : kv.1 ≤ order.price.getD 0
      · rw [if_pos hcross]
        split <;>
        · intro ev hev
          obtain ⟨e, he, o, ho, hp⟩ :=
            match_orders_events_origin _ _ _ _ _ _ ev hev
          exact ⟨e, Or.inl ⟨by trivial, he⟩, o, ho, hp⟩
      · rw [if_neg hcross]
        split <;> simp
  case Sell =>
    simp only [OrderBook.add_limit_order, hside]
    cases hh : bk.bid_map.getLast? with
    | none =>
      dsimp only
      split <;> simp
    | some kv =>
      dsimp only
      by_cases hcross : order.price.getD 0 ≤ kv.1
      · rw [if_pos hcross]
        split <;>
        · intro ev hev
          obtain ⟨e, he, o, ho, hp⟩ :=
            match_orders_events_origin _ _ _ _ _ _ ev hev
          exact ⟨e, Or.inr ⟨by trivial, he⟩, o, ho, hp⟩
      · rw [if_neg hcross]
        split <;> simp

theorem add_market_order_events_origin (bk : OrderBook) (order : Order) :
    ∀ ev ∈ (bk.add_market_order order).2, ∃ e,
      ((order.side = Side.Buy ∧ e ∈ bk.ask_map) ∨
       (order.side = Side.Sell ∧ e ∈ bk.bid_map)) ∧
      ∃ o ∈ e.2, ev.price = o.price.getD 0 ∧
        (ev.buyer, ev.seller) = trade_parties o order.user ∧
        ev.symbol = o.symbol := by
  cases hside : order.side
  case Buy =>
    simp only [OrderBook.add_market_order, hside]
    intro ev hev
    obtain ⟨e, he, o, ho, hp⟩ := match_orders_events_origin _ _ _ _ _ _ ev hev
    exact ⟨e, Or.inl ⟨by trivial, he⟩, o, ho, hp⟩
  case Sell =>
    simp only [OrderBook.add_market_order, hside]
    intro ev hev
    obtain ⟨e, he, o, ho, hp⟩ := match_orders_events_origin _ _ _ _ _ _ ev hev
    exact ⟨e, Or.inr ⟨by trivial, he⟩, o, ho, hp⟩

theorem add_limit_order_eventsQty (bk : OrderBook) (order : Order) :
    eventsQty (bk.add_limit_order order).2 + limitRemainder bk order =
      order.quantity := by
  cases hside : order.side
  case Buy =>
    simp only [OrderBook.add_limit_order, limitRemainder, hside]
    cases hh : bk.ask_map.head? with
    | none =>
      dsimp only
      split <;> simp [eventsQty]
    | some kv =>
      dsimp only
      by_cases hcross : kv.1 ≤ order.price.getD 0
      · rw [if_pos hcross, if_pos hcross]
        split <;> exact match_orders_eventsQty _ _ _ _ _ _
      · rw [if_neg hcross, if_neg hcross]
        split <;> simp [eventsQty]
  case Sell =>
    simp only [OrderBook.add_limit_order, limitRemainder, hside]
    cases hh : bk.bid_map.getLast? with
    | none =>
      dsimp only
      split <;> simp [eventsQty]
    | some kv =>
      dsimp only
      by_cases hcross : order.price.getD 0 ≤ kv.1
      · rw [if_pos hcross, if_pos hcross]
        split <;> exact match_orders_eventsQty _ _ _ _ _ _
      · rw [if_neg hcross, if_neg hcross]
        split <;> simp [eventsQty]

theorem add_market_order_eventsQty (bk : OrderBook) (order : Order) :
    eventsQty (bk.add_market_order order).2 + marketRemainder bk order =
      order.quantity := by
  cases hside : order.side
  case Buy =>
    simp only [OrderBook.add_market_order, marketRemainder, hside]
    exact match_orders_eventsQty _ _ _ _ _ _
  case Sell =>
    simp only [OrderBook.add_market_order, marketRemainder, hside]
    exact match_orders_eventsQty _ _ _ _ _ _

/-! ## Claim theorems -/

/-- C2: in every emitted TradeEvent the buyer is the Buy-side party and
the seller the Sell-side party, whichever of maker and taker it is: every
event of add_limit_order or add_market_order names a resting maker, and
when that maker is Buy-side it is the buyer and the taker the seller,
when Sell-side the taker is the buyer and the maker the seller; in the
S5 scenario (Alice Sell 100x1 rests, then Bob Buy 100x1 crosses on price
equality) exactly one event buyer=Bob seller=Alice price=100 qty=1 is
returned. -/
theorem C2_trade_parties :
    (∀ (bk : OrderBook) (order : Order), ∀ ev ∈ (bk.add_limit_order order).2,
      ∃ p o, inBook bk p o ∧
        (o.side = Side.Buy → ev.buyer = o.user ∧ ev.seller = order.user) ∧
        (o.side = Side.Sell → ev.buyer = order.user ∧ ev.seller = o.user)) ∧
    (∀ (bk : OrderBook) (order : Order), ∀ ev ∈ (bk.add_market_order order).2,
      ∃ p o, inBook bk p o ∧
        (o.side = Side.Buy → ev.buyer = o.user ∧ ev.seller = order.user) ∧
        (o.side = Side.Sell → ev.buyer = order.user ∧ ev.seller = o.user)) ∧
    ((((OrderBook.new "AAPL").add_limit_order
        (limitOrder "Alice" Side.Sell 1 100)).1.add_limit_order
        (limitOrder "Bob" Side.Buy 1 100)).2 =
      [{ buyer := "Bob", seller := "Alice", symbol := "AAPL", quantity := 1,
         price := 100 }]) := by
  refine ⟨?_, ?_, by decide⟩
  · intro bk order ev hev
    obtain ⟨e, hor, o, ho, hp⟩ := add_limit_order_events_origin bk order ev hev
    refine ⟨e.1, o, ⟨e, ?_, rfl, ho⟩, ?_, ?_⟩
    · rcases hor with ⟨-, hmem⟩ | ⟨-, hmem⟩
      · exact Or.inr hmem
      · exact Or.inl hmem
    · intro hbos
      have hpp := hp.2.1
      simp only [trade_parties, hbos] at hpp
      simp only [Prod.mk.injEq] at hpp
      exact hpp
    · intro hbos
      have hpp := hp.2.1
      simp only [trade_parties, hbos] at hpp
      simp only [Prod.mk.injEq] at hpp
      exact hpp
  · intro bk order ev hev
    obtain ⟨e, hor, o, ho, hp⟩ := add_market_order_events_origin bk order ev hev
    refine ⟨e.1, o, ⟨e, ?_, rfl, ho⟩, ?_, ?_⟩
    · rcases hor with ⟨-, hmem⟩ | ⟨-, hmem⟩
      · exact Or.inr hmem
      · exact Or.inl hmem
    · intro hbos
      have hpp := hp.2.1
      simp only [trade_parties, hbos] at hpp
      simp only [Prod.mk.injEq] at hpp
      exact hpp
    · intro hbos
      have hpp := hp.2.1
      simp only [trade_parties, hbos] at hpp
      simp only [Prod.mk.injEq] at hpp
      exact hpp

/-- Witness for C2: the single event of the S5 crossing traces to resting
maker Alice on the ask side. -/
theorem C2_trade_parties_witness :
    ∃ p o,
      inBook (((OrderBook.new "AAPL").add_limit_order
        (limitOrder "Alice" Side.Sell 1 100)).1) p o ∧
      (o.side = Side.Buy →
        ({ buyer := "Bob", seller := "Alice", symbol := "AAPL", quantity := 1,
           price := 100 } : TradeEvent).buyer = o.user ∧
        ({ buyer := "Bob", seller := "Alice", symbol := "AAPL", quantity := 1,
           price := 100 } : TradeEvent).seller =
          (limitOrder "Bob" Side.Buy 1 100).user) ∧
      (o.side = Side.Sell →
        ({ buyer := "Bob", seller := "Alice", symbol := "AAPL", quantity := 1,
           price := 100 } : TradeEvent).buyer =
          (limitOrder "Bob" Side.Buy 1 100).user ∧
        ({ buyer := "Bob", seller := "Alice", symbol := "AAPL", quantity := 1,
           price := 100 } : TradeEvent).seller = o.user) :=
  C2_trade_parties.1 (((OrderBook.new "AAPL").add_limit_order
    (limitOrder "Alice" Side.Sell 1 100)).1) (limitOrder "Bob" Side.Buy 1 100)
    { buyer := "Bob", seller := "Alice", symbol := "AAPL", quantity := 1,
      price := 100 } (by decide)

/-- C3: every TradeEvent emitted by add_limit_order or add_market_order
carries the price of the price level its resting maker sat at (the
maker's own price field), never a price of the taker's choosing. -/
theorem C3_maker_price (bk : OrderBook) (order : Order)
    (hbid : PriceConsistent bk.bid_map) (hask : PriceConsistent bk.ask_map) :
    (∀ ev ∈ (bk.add_limit_order order).2,
      ∃ p o, inBook bk p o ∧ o.price = some p ∧ ev.price = p) ∧
    (∀ ev ∈ (bk.add_market_order order).2,
      ∃ p o, inBook bk p o ∧ o.price = some p ∧ ev.price = p) := by
  constructor
  · intro ev hev
    obtain ⟨e, hor, o, ho, hp⟩ := add_limit_order_events_origin bk order ev hev
    have hmem : e ∈ bk.bid_map ∨ e ∈ bk.ask_map := by
      rcases hor with ⟨-, hmem⟩ | ⟨-, hmem⟩
      · exact Or.inr hmem
      · exact Or.inl hmem
    have hop : o.price = some e.1 := by
      rcases hmem with hmem | hmem
      · exact hbid e hmem o ho
      · exact hask e hmem o ho
    refine ⟨e.1, o, ⟨e, hmem, rfl, ho⟩, hop, ?_⟩
    rw [hp.1, hop]
    rfl
  · intro ev hev
    obtain ⟨e, hor, o, ho, hp⟩ := add_market_order_events_origin bk order ev hev
    have hmem : e ∈ bk.bid_map ∨ e ∈ bk.ask_map := by
      rcases hor with ⟨-, hmem⟩ | ⟨-, hmem⟩
      · exact Or.inr hmem
      · exact Or.inl hmem
    have hop : o.price = some e.1 := by
      rcases hmem with hmem | hmem
      · exact hbid e hmem o ho
      · exact hask e hmem o ho
    refine ⟨e.1, o, ⟨e, hmem, rfl, ho⟩, hop, ?_⟩
    rw [hp.1, hop]
    rfl

/-- Witness for C3: on the S5 book, Bob's crossing buy produces an event
priced at resting maker Alice's level 100. -/
theorem C3_maker_price_witness :
    ∃ p o,
      inBook (((OrderBook.new "AAPL").add_limit_order
        (limitOrder "Alice" Side.Sell 1 100)).1) p o ∧
      o.price = some p ∧
      ({ buyer := "Bob", seller := "Alice", symbol := "AAPL", quantity := 1,
         price := 100 } : TradeEvent).price = p :=
  (C3_maker_price (((OrderBook.new "AAPL").add_limit_order
      (limitOrder "Alice" Side.Sell 1 100)).1) (limitOrder "Bob" Side.Buy 1 100)
    (by unfold PriceConsistent OrdersProp; decide)
    (by unfold PriceConsistent OrdersProp; decide)).1
    { buyer := "Bob", seller := "Alice", symbol := "AAPL", quantity := 1,
      price := 100 } (by decide)

/-- C4: for one call to add_limit_order or add_market_order with an order
of quantity q, the event quantities it returns sum to at most q. -/
theorem C4_taker_quantity_bound (bk : OrderBook) (order : Order) :
    eventsQty (bk.add_limit_order order).2 ≤ order.quantity ∧
    eventsQty (bk.add_market_order order).2 ≤ order.quantity := by
  constructor
  · have := add_limit_order_eventsQty bk order
    omega
  · have := add_market_order_eventsQty bk order
    omega

/-- C1: starting from the empty book, after any sequence of well-formed
add_limit_order / add_market_order calls, whenever both sides are
non-empty the highest bid price is strictly below the lowest ask price. -/
theorem C1_never_crossed_at_rest (s : String) (ops : List Op)
    (h : ∀ op ∈ ops, WFOp op) {hb la : Int}
    (hbid : bestBid (runOps (OrderBook.new s) ops) = some hb)
    (hask : bestAsk (runOps (OrderBook.new s) ops) = some la) :
    hb < la := by
  have hwf := WF_runOps (WF_new s) h
  have hbmem : hb ∈ PriceMap.keysAsc (runOps (OrderBook.new s) ops).bid_map :=
    List.mem_of_getLast?_eq_some hbid
  have hamem : la ∈ PriceMap.keysAsc (runOps (OrderBook.new s) ops).ask_map := by
    obtain ⟨ys, hys⟩ := List.head?_eq_some_iff.mp hask
    rw [hys]
    exact List.mem_cons_self _ _
  exact hwf.notCrossed hb hbmem la hamem

/-- Witness for C1: one resting buy at 100 and one resting sell at 101. -/
theorem C1_never_crossed_at_rest_witness :
    bestBid (runOps (OrderBook.new "AAPL")
      [Op.limit (limitOrder "A" Side.Buy 10 100),
       Op.limit (limitOrder "B" Side.Sell 10 101)]) = some 100 ∧
    bestAsk (runOps (OrderBook.new "AAPL")
      [Op.limit (limitOrder "A" Side.Buy 10 100),
       Op.limit (limitOrder "B" Side.Sell 10 101)]) = some 101 ∧
    (100 : Int) < 101 :=
  ⟨by decide, by decide,
    C1_never_crossed_at_rest "AAPL"
      [Op.limit (limitOrder "A" Side.Buy 10 100),
       Op.limit (limitOrder "B" Side.Sell 10 101)]
      (by intro op hop; fin_cases hop <;> exact ⟨rfl, by decide⟩)
      (by decide) (by decide)⟩

/-- C5: resting orders join the tail of their level's queue; a maker left
with positive quantity after a partial fill goes back to the front of its
queue (the taker being exhausted); and in the S6 scenario two same-price
sells by Alice then Carol are consumed in submission order by two buys. -/
theorem C5_time_priority :
    (∀ (m : PriceMap) (p : Int) (o : Order), PriceMap.keysSorted m →
      PriceMap.lookup (insert_order m p o) p =
        some ((PriceMap.lookup m p).getD [] ++ [o])) ∧
    (∀ (f : Nat) (front : Order) (rest : List Order) (t : String),
      0 < f → f < front.quantity →
      matchQueue f (front :: rest) t =
        (0,
         [make_event
           { front with quantity := front.quantity - f, state := OrderState.PartiallyFilled }
           t f],
         { front with quantity := front.quantity - f, state := OrderState.PartiallyFilled }
           :: rest)) ∧
    (((((OrderBook.new "AAPL").add_limit_order
          (limitOrder "Alice" Side.Sell 5 100)).1.add_limit_order
          (limitOrder "Carol" Side.Sell 5 100)).1.add_limit_order
          (limitOrder "B1" Side.Buy 5 100)).2.map TradeEvent.seller = ["Alice"] ∧
     (((((OrderBook.new "AAPL").add_limit_order
          (limitOrder "Alice" Side.Sell 5 100)).1.add_limit_order
          (limitOrder "Carol" Side.Sell 5 100)).1.add_limit_order
          (limitOrder "B1" Side.Buy 5 100)).1.add_limit_order
          (limitOrder "B2" Side.Buy 5 100)).2.map TradeEvent.seller = ["Carol"]) := by
  refine ⟨?_, ?_, by decide, by decide⟩
  · intro m p o hs
    exact PriceMap.lookup_insert_order_self hs p o
  · intro f front rest t h0 hlt
    have hne : ¬f = 0 := by omega
    simp only [matchQueue, if_neg hne]
    rw [Nat.min_eq_left hlt.le]
    rw [if_neg (by omega : ¬front.quantity - f = 0)]
    rw [if_pos (by omega : 0 < front.quantity - f)]
    rw [Nat.sub_self]

/-- Witness for C5: a level queue holding Alice's sell receives Carol's at
the tail, and a 2-lot taker partially fills Alice's 5-lot maker, pushing
the 3-lot remainder back to the front. -/
theorem C5_time_priority_witness :
    PriceMap.lookup
      (insert_order [((100 : Int), [limitOrder "Alice" Side.Sell 5 100])] 100
        (limitOrder "Carol" Side.Sell 5 100)) 100 =
      some ((PriceMap.lookup [((100 : Int), [limitOrder "Alice" Side.Sell 5 100])]
          100).getD [] ++ [limitOrder "Carol" Side.Sell 5 100]) ∧
    matchQueue 2 [limitOrder "Alice" Side.Sell 5 100] "Bob" =
      (0,
       [make_event
         { limitOrder "Alice" Side.Sell 5 100 with quantity := (limitOrder "Alice" Side.Sell 5 100).quantity - 2, state := OrderState.PartiallyFilled }
         "Bob" 2],
       [{ limitOrder "Alice" Side.Sell 5 100 with quantity := (limitOrder "Alice" Side.Sell 5 100).quantity - 2, state := OrderState.PartiallyFilled }]) :=
  ⟨C5_time_priority.1 [((100 : Int), [limitOrder "Alice" Side.Sell 5 100])] 100
      (limitOrder "Carol" Side.Sell 5 100)
      (by unfold PriceMap.keysSorted; decide),
   C5_time_priority.2.1 2 (limitOrder "Alice" Side.Sell 5 100) [] "Bob"
      (by decide) (by decide)⟩

/-- C6: add_market_order leaves the same-side map untouched, inserts
nothing anywhere (the opposite map's keys only shrink), and against an
empty opposite side returns no events and leaves the book unchanged. -/
theorem C6_market_frame (bk : OrderBook) (order : Order) :
    (order.side = Side.Buy →
      (bk.add_market_order order).1.bid_map = bk.bid_map ∧
      List.Sublist (PriceMap.keysAsc (bk.add_market_order order).1.ask_map)
        (PriceMap.keysAsc bk.ask_map) ∧
      (bk.ask_map = [] →
        (bk.add_market_order order).1 = bk ∧ (bk.add_market_order order).2 = [])) ∧
    (order.side = Side.Sell →
      (bk.add_market_order order).1.ask_map = bk.ask_map ∧
      List.Sublist (PriceMap.keysAsc (bk.add_market_order order).1.bid_map)
        (PriceMap.keysAsc bk.bid_map) ∧
      (bk.bid_map = [] →
        (bk.add_market_order order).1 = bk ∧ (bk.add_market_order order).2 = [])) := by
  obtain ⟨bid, ask, sym⟩ := bk
  constructor
  · intro hside
    simp only [OrderBook.add_market_order, hside]
    refine ⟨by trivial, match_orders_keys_sublist _ _ _ _ _ _, ?_⟩
    intro hask
    subst hask
    exact ⟨by trivial, rfl⟩
  · intro hside
    simp only [OrderBook.add_market_order, hside]
    refine ⟨by trivial, match_orders_keys_sublist _ _ _ _ _ _, ?_⟩
    intro hbid
    subst hbid
    exact ⟨by trivial, rfl⟩

/-- Witness for C6: a market buy against the empty book changes nothing
and returns no events. -/
theorem C6_market_frame_witness :
    ((OrderBook.new "AAPL").add_market_order
      (marketOrder "Bob" Side.Buy 60)).1 = OrderBook.new "AAPL" ∧
    ((OrderBook.new "AAPL").add_market_order
      (marketOrder "Bob" Side.Buy 60)).2 = [] :=
  ((C6_market_frame (OrderBook.new "AAPL")
    (marketOrder "Bob" Side.Buy 60)).1 rfl).2.2 rfl

/-- C7 counterexample: Alice's sell 5 at 100 rests; Bob's buy 10 at 100
is partially filled (one event, remainder 5 rests at bid 100), yet the
resting remainder's state field is Open, not PartiallyFilled. -/
theorem C7_counterexample :
    (((OrderBook.new "AAPL").add_limit_order
      (limitOrder "Alice" Side.Sell 5 100)).1.add_limit_order
      (limitOrder "Bob" Side.Buy 10 100)).2 ≠ [] ∧
    0 < limitRemainder ((OrderBook.new "AAPL").add_limit_order
      (limitOrder "Alice" Side.Sell 5 100)).1 (limitOrder "Bob" Side.Buy 10 100) ∧
    PriceMap.lookup (((OrderBook.new "AAPL").add_limit_order
      (limitOrder "Alice" Side.Sell 5 100)).1.add_limit_order
      (limitOrder "Bob" Side.Buy 10 100)).1.bid_map 100 =
      some [{ user := "Bob", side := Side.Buy, price := some 100, quantity := 5,
              symbol := "AAPL", state := OrderState.Open }] ∧
    OrderState.Open ≠ OrderState.PartiallyFilled := by decide

/-- C7 amended: a partially filled limit taker's remainder rests at the
tail of its own price's queue in the same-side map with its reduced
quantity, but its state field is left exactly as it arrived (Open for a
fresh order) — it is not set to PartiallyFilled. -/
theorem C7_partial_remainder_rests (bk : OrderBook) (order : Order) (pr : Int)
    (hbs : PriceMap.keysSorted bk.bid_map) (has : PriceMap.keysSorted bk.ask_map)
    (hpr : order.price = some pr) :
    (order.side = Side.Buy → 0 < limitRemainder bk order →
      PriceMap.lookup (bk.add_limit_order order).1.bid_map pr =
        some ((PriceMap.lookup bk.bid_map pr).getD [] ++
          [{ order with quantity := limitRemainder bk order }])) ∧
    (order.side = Side.Sell → 0 < limitRemainder bk order →
      PriceMap.lookup (bk.add_limit_order order).1.ask_map pr =
        some ((PriceMap.lookup bk.ask_map pr).getD [] ++
          [{ order with quantity := limitRemainder bk order }])) := by
  have hgd : order.price.getD 0 = pr := by rw [hpr]; rfl
  constructor
  · intro hside hrem
    simp only [limitRemainder, hside, hgd] at hrem ⊢
    simp only [OrderBook.add_limit_order, hside, hgd]
    cases hh : bk.ask_map.head? with
    | none =>
      simp only [hh] at hrem ⊢
      rw [if_pos hrem]
      exact PriceMap.lookup_insert_order_self hbs pr _
    | some kv =>
      simp only [hh] at hrem ⊢
      by_cases hcross : kv.1 ≤ pr
      · simp only [if_pos hcross] at hrem ⊢
        rw [if_pos hrem]
        exact PriceMap.lookup_insert_order_self hbs pr _
      · simp only [if_neg hcross] at hrem ⊢
        rw [if_pos hrem]
        exact PriceMap.lookup_insert_order_self hbs pr _
  · intro hside hrem
    simp only [limitRemainder, hside, hgd] at hrem ⊢
    simp only [OrderBook.add_limit_order, hside, hgd]
    cases hh : bk.bid_map.getLast? with
    | none =>
      simp only [hh] at hrem ⊢
      rw [if_pos hrem]
      exact PriceMap.lookup_insert_order_self has pr _
    | some kv =>
      simp only [hh] at hrem ⊢
      by_cases hcross : pr ≤ kv.1
      · simp only [if_pos hcross] at hrem ⊢
        rw [if_pos hrem]
        exact PriceMap.lookup_insert_order_self has pr _
      · simp only [if_neg hcross] at hrem ⊢
        rw [if_pos hrem]
        exact PriceMap.lookup_insert_order_self has pr _

/-- Witness for the amended C7, at the counterexample's inputs. -/
theorem C7_partial_remainder_rests_witness :
    PriceMap.lookup (((OrderBook.new "AAPL").add_limit_order
      (limitOrder "Alice" Side.Sell 5 100)).1.add_limit_order
      (limitOrder "Bob" Side.Buy 10 100)).1.bid_map 100 =
      some ((PriceMap.lookup ((OrderBook.new "AAPL").add_limit_order
          (limitOrder "Alice" Side.Sell 5 100)).1.bid_map 100).getD [] ++
        [{ limitOrder "Bob" Side.Buy 10 100 with
            quantity := limitRemainder ((OrderBook.new "AAPL").add_limit_order
              (limitOrder "Alice" Side.Sell 5 100)).1
              (limitOrder "Bob" Side.Buy 10 100) }]) :=
  (C7_partial_remainder_rests
    ((OrderBook.new "AAPL").add_limit_order (limitOrder "Alice" Side.Sell 5 100)).1
    (limitOrder "Bob" Side.Buy 10 100) 100
    (by unfold PriceMap.keysSorted; decide)
    (by unfold PriceMap.keysSorted; decide)
    rfl).1 rfl (by decide)

/-- C8: the engine loop's symbol lookup is
`engine_map.get_mut(&order.symbol).unwrap()`, so a decodable order whose
symbol is not configured panics the engine (modelled: none) instead of
being reported and skipped; a message that fails to decode is, by
contrast, skipped with the loop continuing. -/
theorem C8_unknown_symbol_panics :
    engineStep (newEngine configuredSymbols)
      (some { user := "eve", side := Side.Buy, price := some 100, quantity := 1,
              symbol := "NFLX", state := OrderState.Open }) = none ∧
    engineStep (newEngine configuredSymbols) none =
      some (newEngine configuredSymbols, []) := by
  constructor
  · decide
  · rfl

/-- C9 counterexample: the market buy of 60 against an empty book is a
well-formed operation under which the claimed conservation equation
fails: resting-buy-before + incoming = 0 + 60 but resting-buy-after +
buy-matched = 0 + 0 (the remainder is discarded, not conserved). -/
theorem C9_counterexample :
    WFOp (Op.market (marketOrder "Bob" Side.Buy 60)) ∧
    PriceMap.totalQty (OrderBook.new "AAPL").bid_map +
        (marketOrder "Bob" Side.Buy 60).quantity ≠
      PriceMap.totalQty ((OrderBook.new "AAPL").add_market_order
          (marketOrder "Bob" Side.Buy 60)).1.bid_map +
        eventsQty ((OrderBook.new "AAPL").add_market_order
          (marketOrder "Bob" Side.Buy 60)).2 := by
  constructor
  · exact ⟨rfl, by decide⟩
  · decide

theorem add_market_order_same_side (bk : OrderBook) (order : Order) :
    (order.side = Side.Buy →
      (bk.add_market_order order).1.bid_map = bk.bid_map) ∧
    (order.side = Side.Sell →
      (bk.add_market_order order).1.ask_map = bk.ask_map) := by
  constructor
  · intro hside
    simp [OrderBook.add_market_order, hside]
  · intro hside
    simp [OrderBook.add_market_order, hside]

theorem add_limit_order_same_side_totalQty (bk : OrderBook) (order : Order) :
    (order.side = Side.Buy →
      PriceMap.totalQty (bk.add_limit_order order).1.bid_map =
        PriceMap.totalQty bk.bid_map + limitRemainder bk order) ∧
    (order.side = Side.Sell →
      PriceMap.totalQty (bk.add_limit_order order).1.ask_map =
        PriceMap.totalQty bk.ask_map + limitRemainder bk order) := by
  constructor
  · intro hside
    simp only [OrderBook.add_limit_order, limitRemainder, hside]
    cases hh : bk.ask_map.head? with
    | none =>
      dsimp only
      split
      · exact PriceMap.totalQty_insert_order _ _ _
      · next h0 =>
          dsimp only
          omega
    | some kv =>
      dsimp only
      by_cases hcross : kv.1 ≤ order.price.getD 0
      · simp only [if_pos hcross]
        split
        · exact PriceMap.totalQty_insert_order _ _ _
        · next h0 =>
            dsimp only
            omega
      · simp only [if_neg hcross]
        split
        · exact PriceMap.totalQty_insert_order _ _ _
        · next h0 =>
            dsimp only
            omega
  · intro hside
    simp only [OrderBook.add_limit_order, limitRemainder, hside]
    cases hh : bk.bid_map.getLast? with
    | none =>
      dsimp only
      split
      · exact PriceMap.totalQty_insert_order _ _ _
      · next h0 =>
          dsimp only
          omega
    | some kv =>
      dsimp only
      by_cases hcross : order.price.getD 0 ≤ kv.1
      · simp only [if_pos hcross]
        split
        · exact PriceMap.totalQty_insert_order _ _ _
        · next h0 =>
            dsimp only
            omega
      · simp only [if_neg hcross]
        split
        · exact PriceMap.totalQty_insert_order _ _ _
        · next h0 =>
            dsimp only
            omega

theorem add_limit_order_opposite_totalQty (bk : OrderBook) (order : Order) :
    (order.side = Side.Buy → PriceMap.keysSorted bk.ask_map →
      PriceMap.totalQty (bk.add_limit_order order).1.ask_map +
        eventsQty (bk.add_limit_order order).2 = PriceMap.totalQty bk.ask_map) ∧
    (order.side = Side.Sell → PriceMap.keysSorted bk.bid_map →
      PriceMap.totalQty (bk.add_limit_order order).1.bid_map +
        eventsQty (bk.add_limit_order order).2 = PriceMap.totalQty bk.bid_map) := by
  constructor
  · intro hside hs
    simp only [OrderBook.add_limit_order, hside]
    cases hh : bk.ask_map.head? with
    | none =>
      dsimp only
      split <;> simp [eventsQty]
    | some kv =>
      dsimp only
      by_cases hcross : kv.1 ≤ order.price.getD 0
      · simp only [if_pos hcross]
        split <;> exact match_orders_totalQty hs _ _ _ _ _
      · simp only [if_neg hcross]
        split <;> simp [eventsQty]
  · intro hside hs
    simp only [OrderBook.add_limit_order, hside]
    cases hh : bk.bid_map.getLast? with
    | none =>
      dsimp only
      split <;> simp [eventsQty]
    | some kv =>
      dsimp only
      by_cases hcross : order.price.getD 0 ≤ kv.1
      · simp only [if_pos hcross]
        split <;> exact match_orders_totalQty hs _ _ _ _ _
      · simp only [if_neg hcross]
        split <;> simp [eventsQty]

theorem add_market_order_opposite_totalQty (bk : OrderBook) (order : Order) :
    (order.side = Side.Buy → PriceMap.keysSorted bk.ask_map →
      PriceMap.totalQty (bk.add_market_order order).1.ask_map +
        eventsQty (bk.add_market_order order).2 = PriceMap.totalQty bk.ask_map) ∧
    (order.side = Side.Sell → PriceMap.keysSorted bk.bid_map →
      PriceMap.totalQty (bk.add_market_order order).1.bid_map +
        eventsQty (bk.add_market_order order).2 = PriceMap.totalQty bk.bid_map) := by
  constructor
  · intro hside hs
    simp only [OrderBook.add_market_order, hside]
    exact match_orders_totalQty hs _ _ _ _ _
  · intro hside hs
    simp only [OrderBook.add_market_order, hside]
    exact match_orders_totalQty hs _ _ _ _ _

/-- C9 amended: conservation holds per operation once the discarded
market remainder is accounted for. For a limit order, resting same-side
quantity before plus the incoming quantity equals resting same-side
quantity after plus the matched quantity, and the opposite side loses
exactly the matched quantity. For a market order, the same-side map is
untouched and the incoming quantity splits into matched quantity plus the
discarded remainder, while the opposite side again loses exactly the
matched quantity. -/
theorem C9_conservation (bk : OrderBook) (order : Order)
    (hbs : PriceMap.keysSorted bk.bid_map)
    (has : PriceMap.keysSorted bk.ask_map) :
    (order.side = Side.Buy →
      PriceMap.totalQty bk.bid_map + order.quantity =
        PriceMap.totalQty (bk.add_limit_order order).1.bid_map +
          eventsQty (bk.add_limit_order order).2 ∧
      PriceMap.totalQty bk.ask_map =
        PriceMap.totalQty (bk.add_limit_order order).1.ask_map +
          eventsQty (bk.add_limit_order order).2 ∧
      (bk.add_market_order order).1.bid_map = bk.bid_map ∧
      PriceMap.totalQty bk.ask_map =
        PriceMap.totalQty (bk.add_market_order order).1.ask_map +
          eventsQty (bk.add_market_order order).2 ∧
      eventsQty (bk.add_market_order order).2 + marketRemainder bk order =
        order.quantity) ∧
    (order.side = Side.Sell →
      PriceMap.totalQty bk.ask_map + order.quantity =
        PriceMap.totalQty (bk.add_limit_order order).1.ask_map +
          eventsQty (bk.add_limit_order order).2 ∧
      PriceMap.totalQty bk.bid_map =
        PriceMap.totalQty (bk.add_limit_order order).1.bid_map +
          eventsQty (bk.add_limit_order order).2 ∧
      (bk.add_market_order order).1.ask_map = bk.ask_map ∧
      PriceMap.totalQty bk.bid_map =
        PriceMap.totalQty (bk.add_market_order order).1.bid_map +
          eventsQty (bk.add_market_order order).2 ∧
      eventsQty (bk.add_market_order order).2 + marketRemainder bk order =
        order.quantity) := by
  constructor
  · intro hside
    have h1 := (add_limit_order_same_side_totalQty bk order).1 hside
    have h2 := (add_limit_order_opposite_totalQty bk order).1 hside has
    have h3 := add_limit_order_eventsQty bk order
    have h4 := (add_market_order_same_side bk order).1 hside
    have h5 := (add_market_order_opposite_totalQty bk order).1 hside has
    have h6 := add_market_order_eventsQty bk order
    exact ⟨by omega, by omega, h4, by omega, h6⟩
  · intro hside
    have h1 := (add_limit_order_same_side_totalQty bk order).2 hside
    have h2 := (add_limit_order_opposite_totalQty bk order).2 hside hbs
    have h3 := add_limit_order_eventsQty bk order
    have h4 := (add_market_order_same_side bk order).2 hside
    have h5 := (add_market_order_opposite_totalQty bk order).2 hside hbs
    have h6 := add_market_order_eventsQty bk order
    exact ⟨by omega, by omega, h4, by omega, h6⟩

/-- Witness for the amended C9: Alice's 5 rest at ask 100; Bob's buy 10
at 100 matches 5 and rests 5; and Bob's market buy 10 against the same
book matches 5 and discards 5. -/
theorem C9_conservation_witness :
    PriceMap.totalQty ((OrderBook.new "AAPL").add_limit_order
        (limitOrder "Alice" Side.Sell 5 100)).1.bid_map +
      (limitOrder "Bob" Side.Buy 10 100).quantity =
      PriceMap.totalQty (((OrderBook.new "AAPL").add_limit_order
          (limitOrder "Alice" Side.Sell 5 100)).1.add_limit_order
          (limitOrder "Bob" Side.Buy 10 100)).1.bid_map +
        eventsQty (((OrderBook.new "AAPL").add_limit_order
          (limitOrder "Alice" Side.Sell 5 100)).1.add_limit_order
          (limitOrder "Bob" Side.Buy 10 100)).2 ∧
    PriceMap.totalQty ((OrderBook.new "AAPL").add_limit_order
        (limitOrder "Alice" Side.Sell 5 100)).1.ask_map =
      PriceMap.totalQty (((OrderBook.new "AAPL").add_limit_order
          (limitOrder "Alice" Side.Sell 5 100)).1.add_limit_order
          (limitOrder "Bob" Side.Buy 10 100)).1.ask_map +
        eventsQty (((OrderBook.new "AAPL").add_limit_order
          (limitOrder "Alice" Side.Sell 5 100)).1.add_limit_order
          (limitOrder "Bob" Side.Buy 10 100)).2 ∧
    (((OrderBook.new "AAPL").add_limit_order
        (limitOrder "Alice" Side.Sell 5 100)).1.add_market_order
        (limitOrder "Bob" Side.Buy 10 100)).1.bid_map =
      ((OrderBook.new "AAPL").add_limit_order
        (limitOrder "Alice" Side.Sell 5 100)).1.bid_map ∧
    PriceMap.totalQty ((OrderBook.new "AAPL").add_limit_order
        (limitOrder "Alice" Side.Sell 5 100)).1.ask_map =
      PriceMap.totalQty (((OrderBook.new "AAPL").add_limit_order
          (limitOrder "Alice" Side.Sell 5 100)).1.add_market_order
          (limitOrder "Bob" Side.Buy 10 100)).1.ask_map +
        eventsQty (((OrderBook.new "AAPL").add_limit_order
          (limitOrder "Alice" Side.Sell 5 100)).1.add_market_order
          (limitOrder "Bob" Side.Buy 10 100)).2 ∧
    eventsQty (((OrderBook.new "AAPL").add_limit_order
        (limitOrder "Alice" Side.Sell 5 100)).1.add_market_order
        (limitOrder "Bob" Side.Buy 10 100)).2 +
      marketRemainder ((OrderBook.new "AAPL").add_limit_order
        (limitOrder "Alice" Side.Sell 5 100)).1 (limitOrder "Bob" Side.Buy 10 100) =
      (limitOrder "Bob" Side.Buy 10 100).quantity :=
  (C9_conservation
    ((OrderBook.new "AAPL").add_limit_order (limitOrder "Alice" Side.Sell 5 100)).1
    (limitOrder "Bob" Side.Buy 10 100)
    (by unfold PriceMap.keysSorted; decide)
    (by unfold PriceMap.keysSorted; decide)).1 rfl

/-! ## The checked variants agree with the plain code on well-formed input -/

theorem make_eventChecked_eq {maker : Order} (t : String) (qty : Nat)
    (h : maker.price.isSome = true) :
    make_eventChecked maker t qty = some (make_event maker t qty) := by
  obtain ⟨p0, hp0⟩ := Option.isSome_iff_exists.mp h
  simp [make_eventChecked, make_event, hp0]

theorem matchQueueChecked_eq {q : List Order} (f : Nat) (t : String)
    (h : ∀ o ∈ q, o.price.isSome = true) :
    matchQueueChecked f q t = some (matchQueue f q t) := by
  induction q generalizing f with
  | nil => rfl
  | cons front rest ih =>
    by_cases h0 : f = 0
    · simp [matchQueueChecked, matchQueue, h0]
    · simp only [matchQueueChecked, matchQueue, if_neg h0]
      have hc1 : checkedSub front.quantity (min f front.quantity) =
          some (front.quantity - min f front.quantity) := by
        simp [checkedSub, Nat.min_le_right]
      have hc2 : checkedSub f (min f front.quantity) =
          some (f - min f front.quantity) := by
        simp [checkedSub, Nat.min_le_left]
      rw [hc1, hc2]
      dsimp only
      have hev := @make_eventChecked_eq
        { front with
          quantity := front.quantity - min f front.quantity
          state := if front.quantity - min f front.quantity = 0
            then OrderState.Filled else OrderState.PartiallyFilled }
        t (min f front.quantity) (h front (List.mem_cons_self _ _))
      rw [hev]
      by_cases hq : 0 < front.quantity - min f front.quantity
      · simp only [if_pos hq]
      · simp only [if_neg hq]
        rw [ih (f - min f front.quantity)
          (fun o ho => h o (List.mem_cons_of_mem _ ho))]

theorem matchWalkChecked_eq {ks : List Int} {f : Nat} {p : Option Int}
    {b : PriceMap} {a : Bool} {ot : OrderType} {u : String}
    (hnd : ks.Nodup) (hsub : ∀ k ∈ ks, k ∈ PriceMap.keysAsc b)
    (hord : OrdersProp b (fun _ o => o.price.isSome = true))
    (hp : ot = OrderType.Limit → p.isSome = true) :
    matchWalkChecked ks f p b a ot u = some (matchWalk ks f p b a ot u) := by
  induction ks generalizing f b with
  | nil => rfl
  | cons c rest ih =>
    simp only [List.nodup_cons] at hnd
    have hbody : ∀ (g : Bool), g = true →
        (match PriceMap.lookup b c with
          | none => none
          | some queue =>
            match matchQueueChecked f queue u with
            | none => none
            | some r =>
              if r.1 = 0 then
                some (r.1, r.2.1,
                  if r.2.2.isEmpty then PriceMap.eraseKey b c
                  else PriceMap.setQueue b c r.2.2)
              else
                match matchWalkChecked rest r.1 p
                  (if r.2.2.isEmpty then PriceMap.eraseKey b c
                    else PriceMap.setQueue b c r.2.2) a ot u with
                | none => none
                | some w => some (w.1, r.2.1 ++ w.2.1, w.2.2)) =
        some (if (matchQueue f ((PriceMap.lookup b c).getD []) u).1 = 0 then
            ((matchQueue f ((PriceMap.lookup b c).getD []) u).1,
              (matchQueue f ((PriceMap.lookup b c).getD []) u).2.1,
              if (matchQueue f ((PriceMap.lookup b c).getD []) u).2.2.isEmpty
                then PriceMap.eraseKey b c
                else PriceMap.setQueue b c
                  (matchQueue f ((PriceMap.lookup b c).getD []) u).2.2)
          else
            ((matchWalk rest (matchQueue f ((PriceMap.lookup b c).getD []) u).1 p
                (if (matchQueue f ((PriceMap.lookup b c).getD []) u).2.2.isEmpty
                  then PriceMap.eraseKey b c
                  else PriceMap.setQueue b c
                    (matchQueue f ((PriceMap.lookup b c).getD []) u).2.2)
                a ot u).1,
              (matchQueue f ((PriceMap.lookup b c).getD []) u).2.1 ++
                (matchWalk rest (matchQueue f ((PriceMap.lookup b c).getD []) u).1 p
                  (if (matchQueue f ((PriceMap.lookup b c).getD []) u).2.2.isEmpty
                    then PriceMap.eraseKey b c
                    else PriceMap.setQueue b c
                      (matchQueue f ((PriceMap.lookup b c).getD []) u).2.2)
                  a ot u).2.1,
              (matchWalk rest (matchQueue f ((PriceMap.lookup b c).getD []) u).1 p
                (if (matchQueue f ((PriceMap.lookup b c).getD []) u).2.2.isEmpty
                  then PriceMap.eraseKey b c
                  else PriceMap.setQueue b c
                    (matchQueue f ((PriceMap.lookup b c).getD []) u).2.2)
                a ot u).2.2)) := by
      intro g hg
      obtain ⟨q0, hl⟩ := PriceMap.lookup_isSome_of_mem (hsub c (List.mem_cons_self _ _))
      have hgd : (PriceMap.lookup b c).getD [] = q0 := by rw [hl]; rfl
      have hq0 : ∀ o ∈ q0, o.price.isSome = true :=
        hord (c, q0) (PriceMap.lookup_mem hl)
      rw [hl]
      simp only [Option.getD_some]
      rw [matchQueueChecked_eq f u hq0]
      dsimp only
      by_cases h0 : (matchQueue f q0 u).1 = 0
      · rw [if_pos h0, if_pos h0]
      · rw [if_neg h0, if_neg h0]
        have hord' : OrdersProp
            (if (matchQueue f q0 u).2.2.isEmpty then PriceMap.eraseKey b c
              else PriceMap.setQueue b c (matchQueue f q0 u).2.2)
            (fun _ o => o.price.isSome = true) := by
          split
          · intro e he o ho
            exact hord e (PriceMap.mem_eraseKey he) o ho
          · intro e he o ho
            rcases PriceMap.mem_setQueue he with he' | he'
            · subst he'
              obtain ⟨o1, ho1, hid⟩ := matchQueue_mem_origin o ho
              rw [hid.2.2.1]
              exact hord (c, q0) (PriceMap.lookup_mem hl) o1 ho1
            · exact hord e he' o ho
        have hsub' : ∀ k ∈ rest, k ∈ PriceMap.keysAsc
            (if (matchQueue f q0 u).2.2.isEmpty then PriceMap.eraseKey b c
              else PriceMap.setQueue b c (matchQueue f q0 u).2.2) := by
          intro k hk
          have hkb : k ∈ PriceMap.keysAsc b := hsub k (List.mem_cons_of_mem _ hk)
          have hkc : k ≠ c := fun hkc => hnd.1 (hkc ▸ hk)
          split
          · exact PriceMap.mem_keysAsc_eraseKey hkb hkc
          · rw [PriceMap.keysAsc_setQueue]
            exact hkb
        rw [ih hnd.2 hsub' hord']
    cases ot with
    | Market =>
      simp only [matchWalkChecked, matchWalk]
      exact hbody true rfl
    | Limit =>
      obtain ⟨p0, hp0⟩ := Option.isSome_iff_exists.mp (hp rfl)
      subst hp0
      simp only [matchWalkChecked, matchWalk, priceCross, Option.getD_some]
      by_cases hg : (if a then decide (c ≤ p0) else decide (p0 ≤ c)) = true
      · rw [if_pos hg, if_pos hg]
        exact hbody _ hg
      · rw [if_neg hg, if_neg hg]

theorem match_ordersChecked_eq {b : PriceMap} (hs : PriceMap.keysSorted b)
    (f : Nat) (p : Option Int) (asc : Bool) (ot : OrderType) (u : String)
    (hord : OrdersProp b (fun _ o => o.price.isSome = true))
    (hp : ot = OrderType.Limit → p.isSome = true) :
    match_ordersChecked f p b asc ot u = some (match_orders f p b asc ot u) := by
  cases asc
  · have hnd : ((PriceMap.keysAsc b).reverse).Nodup :=
      List.nodup_reverse.mpr hs.nodup
    have hsub : ∀ k ∈ (PriceMap.keysAsc b).reverse, k ∈ PriceMap.keysAsc b :=
      fun k hk => List.mem_reverse.mp hk
    exact matchWalkChecked_eq hnd hsub hord hp
  · exact matchWalkChecked_eq hs.nodup (fun k hk => hk) hord hp

theorem add_limit_orderChecked_eq {bk : OrderBook} {order : Order}
    (hbs : PriceMap.keysSorted bk.bid_map) (has : PriceMap.keysSorted bk.ask_map)
    (hbord : OrdersProp bk.bid_map (fun _ o => o.price.isSome = true))
    (haord : OrdersProp bk.ask_map (fun _ o => o.price.isSome = true))
    (hp : order.price.isSome = true) :
    add_limit_orderChecked bk order = some (bk.add_limit_order order) := by
  obtain ⟨p0, hp0⟩ := Option.isSome_iff_exists.mp hp
  cases hside : order.side
  case Buy =>
    simp only [add_limit_orderChecked, OrderBook.add_limit_order, hside, hp0,
      Option.getD_some]
    cases hh : bk.ask_map.head? with
    | none =>
      try dsimp only
      split <;> rfl
    | some kv =>
      try dsimp only
      by_cases hcross : kv.1 ≤ p0
      · simp only [if_pos hcross]
        rw [match_ordersChecked_eq has order.quantity (some p0) true
          OrderType.Limit order.user haord (fun _ => rfl)]
        try dsimp only
        split <;> rfl
      · simp only [if_neg hcross]
        try dsimp only
        split <;> rfl
  case Sell =>
    simp only [add_limit_orderChecked, OrderBook.add_limit_order, hside, hp0,
      Option.getD_some]
    cases hh : bk.bid_map.getLast? with
    | none =>
      try dsimp only
      split <;> rfl
    | some kv =>
      try dsimp only
      by_cases hcross : p0 ≤ kv.1
      · simp only [if_pos hcross]
        rw [match_ordersChecked_eq hbs order.quantity (some p0) false
          OrderType.Limit order.user hbord (fun _ => rfl)]
        try dsimp only
        split <;> rfl
      · simp only [if_neg hcross]
        try dsimp only
        split <;> rfl

theorem add_market_orderChecked_eq {bk : OrderBook} {order : Order}
    (hbs : PriceMap.keysSorted bk.bid_map) (has : PriceMap.keysSorted bk.ask_map)
    (hbord : OrdersProp bk.bid_map (fun _ o => o.price.isSome = true))
    (haord : OrdersProp bk.ask_map (fun _ o => o.price.isSome = true)) :
    add_market_orderChecked bk order = some (bk.add_market_order order) := by
  cases hside : order.side
  case Buy =>
    simp only [add_market_orderChecked, OrderBook.add_market_order, hside]
    rw [match_ordersChecked_eq has order.quantity none true OrderType.Market
      order.user haord (fun hlim => by cases hlim)]
  case Sell =>
    simp only [add_market_orderChecked, OrderBook.add_market_order, hside]
    rw [match_ordersChecked_eq hbs order.quantity none false OrderType.Market
      order.user hbord (fun hlim => by cases hlim)]

/-- C10: on every book reachable by well-formed operations, every resting
order carries price = some of its level key and a positive quantity;
consequently the checked versions of both entry points — in which the
price unwraps, the B-tree lookups feeding unwrap, and the u64
subtractions of the matching walk return none exactly where the Rust
would panic — return some of the plain result: no unwrap panics and no
subtraction underflows. -/
theorem C10_resting_orders_safe (s : String) (ops : List Op)
    (h : ∀ op ∈ ops, WFOp op) :
    OrdersProp (runOps (OrderBook.new s) ops).bid_map
      (fun pb o => o.price = some pb ∧ 0 < o.quantity) ∧
    OrdersProp (runOps (OrderBook.new s) ops).ask_map
      (fun pa o => o.price = some pa ∧ 0 < o.quantity) ∧
    (∀ order : Order, order.price.isSome = true →
      add_limit_orderChecked (runOps (OrderBook.new s) ops) order =
        some ((runOps (OrderBook.new s) ops).add_limit_order order)) ∧
    (∀ order : Order,
      add_market_orderChecked (runOps (OrderBook.new s) ops) order =
        some ((runOps (OrderBook.new s) ops).add_market_order order)) := by
  have hwf := WF_runOps (WF_new s) h
  refine ⟨?_, ?_, ?_, ?_⟩
  · intro e he o ho
    exact (hwf.bidOrders e he o ho).2
  · intro e he o ho
    exact (hwf.askOrders e he o ho).2
  · intro order hp
    exact add_limit_orderChecked_eq hwf.bidSorted hwf.askSorted
      (fun e he o ho => by
        show o.price.isSome = true
        rw [(hwf.bidOrders e he o ho).2.1]
        rfl)
      (fun e he o ho => by
        show o.price.isSome = true
        rw [(hwf.askOrders e he o ho).2.1]
        rfl) hp
  · intro order
    exact add_market_orderChecked_eq hwf.bidSorted hwf.askSorted
      (fun e he o ho => by
        show o.price.isSome = true
        rw [(hwf.bidOrders e he o ho).2.1]
        rfl)
      (fun e he o ho => by
        show o.price.isSome = true
        rw [(hwf.askOrders e he o ho).2.1]
        rfl)

/-- Witness for C10: with Alice's sell resting, Bob's crossing buy and a
market sell both run panic-free (checked = some plain). -/
theorem C10_resting_orders_safe_witness :
    add_limit_orderChecked
      (runOps (OrderBook.new "AAPL") [Op.limit (limitOrder "Alice" Side.Sell 5 100)])
      (limitOrder "Bob" Side.Buy 10 100) =
      some ((runOps (OrderBook.new "AAPL")
        [Op.limit (limitOrder "Alice" Side.Sell 5 100)]).add_limit_order
        (limitOrder "Bob" Side.Buy 10 100)) ∧
    add_market_orderChecked
      (runOps (OrderBook.new "AAPL") [Op.limit (limitOrder "Alice" Side.Sell 5 100)])
      (marketOrder "Carol" Side.Sell 3) =
      some ((runOps (OrderBook.new "AAPL")
        [Op.limit (limitOrder "Alice" Side.Sell 5 100)]).add_market_order
        (marketOrder "Carol" Side.Sell 3)) :=
  ⟨(C10_resting_orders_safe "AAPL" [Op.limit (limitOrder "Alice" Side.Sell 5 100)]
      (by intro op hop; fin_cases hop; exact ⟨rfl, by decide⟩)).2.2.1
      (limitOrder "Bob" Side.Buy 10 100) rfl,
   (C10_resting_orders_safe "AAPL" [Op.limit (limitOrder "Alice" Side.Sell 5 100)]
      (by intro op hop; fin_cases hop; exact ⟨rfl, by decide⟩)).2.2.2
      (marketOrder "Carol" Side.Sell 3)⟩

end StockExchange
